import Mathlib

/-!
A shallow embedding of the core of the `dkim` Python module
(`dkim/__init__.py`, Python 2): the RFC 822 parser, the `simple` and
`relaxed` canonicalization algorithms, the signature-field validator,
the header-hash composer, the header folder and the `sign` / `verify`
pipelines.  Python 2 byte strings (`str`) are modelled as `List Char`
over ASCII code points; the regular expressions of the source are
re-expressed as explicit scans whose derivation from Python 2 `re`
semantics is recorded at each definition.  External collaborators of
the module (`dkim.crypto`, `dkim.util`, `hashlib`, DNS) are modelled
as explicit parameters or, where the specification pins them down, as
executable definitions marked "Modelled from the spec".
-/

set_option maxRecDepth 10000

namespace Dkim

/-- Python byte strings (`str` in Python 2) as lists of ASCII characters. -/
abbrev Bytes := List Char

/-- Shorthand turning a Lean string literal into `Bytes`. -/
def bs (s : String) : Bytes := s.data

/-- A parsed RFC 822 header: a (name, value) pair, as in the source's
`headers` lists. -/
abbrev Header := Bytes × Bytes

/-- The Python exceptions that can escape the functions of the module.
`validationError`, `messageFormatError`, `parameterError` and
`keyFormatError` are the module's own `DKIMException` subclasses;
`indexError`, `keyError`, `typeError`, `valueError` and
`assertionError` are Python built-ins reached by the source;
`invalidTagValueList` comes from `dkim.util`. -/
inductive PyErr where
  | messageFormatError (msg : Bytes)
  | validationError (msg : Bytes)
  | parameterError (msg : Bytes)
  | keyFormatError (msg : Bytes)
  | invalidTagValueList
  | indexError
  | keyError
  | typeError
  | valueError
  | assertionError
  deriving DecidableEq, Repr

/-- Decidable equality for `Except`, used to evaluate concrete runs of
the embedded functions inside proofs. -/
instance {ε α : Type} [DecidableEq ε] [DecidableEq α] : DecidableEq (Except ε α) := fun x y =>
  match x, y with
  | .ok a, .ok b => if h : a = b then .isTrue (by rw [h]) else .isFalse (by simp [h])
  | .error a, .error b => if h : a = b then .isTrue (by rw [h]) else .isFalse (by simp [h])
  | .ok _, .error _ => .isFalse (by simp)
  | .error _, .ok _ => .isFalse (by simp)

/-- Python 2 `str` whitespace: the characters stripped by `strip()` and
matched by the regex class `\s` on byte strings. -/
def isPyWsp (c : Char) : Bool :=
  c = ' ' || c = '\t' || c = '\n' || c = '\r' || c = '\x0b' || c = '\x0c'

/-- The class `[\x09\x20]` (tab or space). -/
def isHWsp (c : Char) : Bool := c = '\t' || c = ' '

/-- The printable class `[\x21-\x7e]` of the header-name regex. -/
def isPrintable (c : Char) : Bool := 0x21 ≤ c.toNat && c.toNat ≤ 0x7e

/-- ASCII lower-casing, as Python 2 `str.lower` acts on ASCII bytes:
code points 65-90 are shifted by 32, everything else is unchanged. -/
def lowerC (c : Char) : Char :=
  if 65 ≤ c.toNat ∧ c.toNat ≤ 90 then Char.ofNat (c.toNat + 32) else c

/-- Python `s.lower()`. -/
def lowerB (s : Bytes) : Bytes := s.map lowerC

/-- Python `s.strip()` (both ends, Python 2 whitespace). -/
def stripPy (s : Bytes) : Bytes :=
  ((s.dropWhile isPyWsp).reverse.dropWhile isPyWsp).reverse

/-- Python `s.rstrip()`. -/
def rstripPy (s : Bytes) : Bytes := (s.reverse.dropWhile isPyWsp).reverse

/-- Index of the first occurrence of `pat` as a contiguous substring of
`s` (Python `s.find(pat)` when it returns a non-negative index). -/
def findSubIdx : Bytes → Bytes → Option Nat
  | [], pat => if pat.isEmpty then some 0 else none
  | c :: rest, pat =>
    if pat.isPrefixOf (c :: rest) then some 0
    else (findSubIdx rest pat).map (· + 1)

/-- Index of the last occurrence of `pat` in `s` (Python `s.rfind(pat)`
when it returns a non-negative index). -/
def rfindSubIdx (s pat : Bytes) : Option Nat :=
  ((List.range (s.length + 1)).filter (fun i => pat.isPrefixOf (s.drop i))).getLast?

/-- Python 2 `re.split("\r?\n", s)`: split at each CRLF or bare LF,
scanning left to right; a CR not followed by LF stays inside its line. -/
def splitLines : Bytes → List Bytes
  | [] => [[]]
  | c :: rest =>
    if c = '\n' then [] :: splitLines rest
    else if c = '\r' then
      match rest with
      | [] => [['\r']]
      | d :: rest2 =>
        if d = '\n' then [] :: splitLines rest2
        else
          match splitLines (d :: rest2) with
          | l :: ls => ('\r' :: l) :: ls
          | [] => [['\r']]
    else
      match splitLines rest with
      | l :: ls => (c :: l) :: ls
      | [] => [[c]]

/-- The non-greedy match `re.match(r"([\x21-\x7e]+?):", line)`: the name
is the shortest non-empty run of printable characters from the start of
the line that is immediately followed by a colon; returns the name and
the text after that colon.  `acc` holds the name read so far, reversed. -/
def headerNameSplit (acc : Bytes) : Bytes → Option (Bytes × Bytes)
  | [] => none
  | c :: rest =>
    if c = ':' && !acc.isEmpty then some (acc.reverse, rest)
    else if isPrintable c then headerNameSplit (c :: acc) rest
    else none

/-- The header/body loop of `rfc822_parse`, iterating over the split
lines with the accumulated header list.  A continuation line arriving
while `headers` is still empty indexes `headers[-1]` out of range
(IndexError); an unrecognizable line raises `MessageFormatError`. -/
def rfc822Loop (headers : List Header) : List Bytes → Except PyErr (List Header × Bytes)
  | [] => .ok (headers, [])
  | [] :: rest => .ok (headers, List.intercalate (bs "\r\n") rest)
  | (c :: cs) :: rest =>
    if isHWsp c then
      match headers.getLast? with
      | none => .error .indexError
      | some (n, v) =>
        rfc822Loop (headers.dropLast ++ [(n, v ++ (c :: cs) ++ bs "\r\n")]) rest
    else
      match headerNameSplit [] (c :: cs) with
      | some (name, after) => rfc822Loop (headers ++ [(name, after ++ bs "\r\n")]) rest
      | none =>
        if (bs "From ").isPrefixOf (c :: cs) then rfc822Loop headers rest
        else .error (.messageFormatError (bs "Unexpected characters in RFC822 header: " ++ (c :: cs)))

/-- `rfc822_parse(message)`: split into lines on `\r?\n` and run the
header/body loop. -/
def rfc822_parse (message : Bytes) : Except PyErr (List Header × Bytes) :=
  rfc822Loop [] (splitLines message)

/-- Remove the maximal leading repetition of `'\n' :: '\r'` pairs; on a
reversed string this strips trailing "\r\n" pairs. -/
def stripPairsRev : Bytes → Bytes
  | [] => []
  | [c] => [c]
  | c :: d :: t => if c = '\n' ∧ d = '\r' then stripPairsRev t else c :: d :: t

/-- Python 2 `re.sub("(\r\n)*$", "\r\n", s)`.

Derivation from Python 2 `re` semantics.  In a non-MULTILINE pattern,
`$` matches at the end of the string and also just before a final
`'\n'`.  `re.sub` scans left to right, replacing non-overlapping
matches; in Python 2 an empty match is replaced only when it is not
adjacent to the end of the previous match.

Case 1 - `s` does not end with a bare `'\n'` (it is empty, ends with
"\r\n" or ends with some other character): the only positions where
`(\r\n)*$` can match are the start of the maximal trailing run of
"\r\n" pairs (consuming that whole run, possibly empty) and, when the
run is non-empty, the string end, where the empty match is skipped as
adjacent.  The result replaces the maximal trailing "\r\n"-run by a
single "\r\n".

Case 2 - `s` ends with `'\n'` not preceded by `'\r'`: `$` matches both
just before that final `'\n'` and at the end.  The first match starts
at the beginning of the maximal "\r\n"-run of `s` without its final
character and ends just before the final `'\n'`; the replacement
"\r\n" is emitted there, the final `'\n'` is copied, and at the string
end a second, non-adjacent empty match inserts another "\r\n". -/
def subTrailingCrlf (s : Bytes) : Bytes :=
  if s.reverse.head? = some '\n' ∧ s.reverse.tail.head? ≠ some '\r' then
    (stripPairsRev s.reverse.tail).reverse ++ bs "\r\n\n\r\n"
  else
    (stripPairsRev s.reverse).reverse ++ bs "\r\n"

namespace Simple

/-- Class `Simple`, headers: no changes. -/
def canonicalize_headers (headers : List Header) : List Header := headers

/-- Class `Simple`, body: `re.sub("(\r\n)*$", "\r\n", body)`. -/
def canonicalize_body (body : Bytes) : Bytes := subTrailingCrlf body

end Simple

/-- Single-pass, leftmost, non-overlapping `re.sub("\r\n", "", v)`. -/
def removeCrlf : Bytes → Bytes
  | [] => []
  | [c] => [c]
  | c :: d :: t => if c = '\r' ∧ d = '\n' then removeCrlf t else c :: removeCrlf (d :: t)

/-- Run-tracking scan for `re.sub(<class>+, " ", v)`: `inRun` records
whether the previous character belonged to the current whitespace run,
so each maximal run of characters of the class emits exactly one
space. -/
def collapseGo (cls : Char → Bool) (inRun : Bool) : Bytes → Bytes
  | [] => []
  | c :: r =>
    if cls c then
      if inRun then collapseGo cls true r else ' ' :: collapseGo cls true r
    else c :: collapseGo cls false r

/-- `re.sub(r"\s+", " ", v)`: collapse every maximal run of Python
whitespace to a single space. -/
def collapsePyWsp (s : Bytes) : Bytes := collapseGo isPyWsp false s

/-- `re.sub("[\x09\x20]+", " ", v)`: collapse every maximal run of tab
or space to a single space. -/
def collapseHWsp (s : Bytes) : Bytes := collapseGo isHWsp false s

/-- Scan for `re.sub("[\x09\x20]+\r\n", "\r\n", body)`: delete every
maximal run of tab/space that immediately precedes a "\r\n".  `pend`
holds the current run of tab/space, reversed; on "\r\n" the pending
run is discarded (it matched `[\x09\x20]+\r\n`; a "\r\n" with an empty
`pend` is simply copied), any other character flushes the run.  The
regex scan is leftmost, greedy and non-overlapping, which is exactly
this behaviour. -/
def swbcGo (pend : Bytes) : Bytes → Bytes
  | [] => pend.reverse
  | '\r' :: '\n' :: r => '\r' :: '\n' :: swbcGo [] r
  | c :: r =>
    if isHWsp c then swbcGo (c :: pend) r
    else pend.reverse ++ c :: swbcGo [] r

/-- `re.sub("[\x09\x20]+\r\n", "\r\n", body)`. -/
def stripWspBeforeCrlf (s : Bytes) : Bytes := swbcGo [] s

namespace Relaxed

/-- Class `Relaxed`, headers: lowercase the name; in the value delete
every "\r\n", collapse whitespace runs to single spaces, strip, and
append "\r\n". -/
def canonicalize_headers (headers : List Header) : List Header :=
  headers.map fun x => (lowerB x.1, stripPy (collapsePyWsp (removeCrlf x.2)) ++ bs "\r\n")

/-- Class `Relaxed`, body: strip tab/space runs before line endings,
collapse remaining tab/space runs to single spaces, then normalize the
trailing empty lines exactly as `Simple` does. -/
def canonicalize_body (body : Bytes) : Bytes :=
  subTrailingCrlf (collapseHWsp (stripWspBeforeCrlf body))

end Relaxed

/-- The canonicalization classes passed around by the source (`Simple`
or `Relaxed`). -/
inductive CanonAlg where
  | simple
  | relaxed
  deriving DecidableEq, Repr

def CanonAlg.canonicalize_headers : CanonAlg → List Header → List Header
  | .simple => Simple.canonicalize_headers
  | .relaxed => Relaxed.canonicalize_headers

def CanonAlg.canonicalize_body : CanonAlg → Bytes → Bytes
  | .simple => Simple.canonicalize_body
  | .relaxed => Relaxed.canonicalize_body

def CanonAlg.algName : CanonAlg → Bytes
  | .simple => bs "simple"
  | .relaxed => bs "relaxed"

/-- A Python dict of signature tags, as an association list with unique
keys (`parse_tag_value` rejects duplicates). -/
abbrev TagMap := List (Bytes × Bytes)

/-- Dictionary lookup, `sig.get(k)`-style. -/
def tmFind (sig : TagMap) (k : Bytes) : Option Bytes :=
  (sig.find? (fun p => p.1 == k)).map (·.2)

/-- Python `k in sig`. -/
def tmMem (sig : TagMap) (k : Bytes) : Bool := (tmFind sig k).isSome

/-- Python `sig[k]`: raises `KeyError` when the key is absent. -/
def tmGet (sig : TagMap) (k : Bytes) : Except PyErr Bytes :=
  match tmFind sig k with
  | some v => .ok v
  | none => .error .keyError

/-- The character class `[\s0-9A-Za-z+/]` of the base64 format checks. -/
def isB64Class (c : Char) : Bool := isPyWsp c || c.isDigit || c.isAlpha || c == '+' || c == '/'

/-- `re.match(r"[\s0-9A-Za-z+/]+=*$", s) is not None`.  Since `=` is
not in the class, a match forces the class run to be the maximal class
prefix, followed by `=` signs, followed by the end of the string - or,
because `$` also matches just before a final `'\n'`, by a final
`'\n'`. -/
def matchB64Tag (s : Bytes) : Bool :=
  let p := s.takeWhile isB64Class
  let r := s.dropWhile isB64Class
  !p.isEmpty && (r.all (· == '=') ||
    (match r.reverse with
     | '\n' :: rr => rr.all (· == '=')
     | _ => false))

/-- Drop a single final `'\n'`, modelling that `$` in a non-MULTILINE
Python regex also matches just before a terminal newline. -/
def dropFinalLf (s : Bytes) : Bytes :=
  match s.reverse with
  | '\n' :: rr => rr.reverse
  | _ => s

/-- `re.match(r"\d+$", s) is not None`: one or more digits spanning the
whole string, allowing one final `'\n'` ( `$` quirk). -/
def matchDecimal (s : Bytes) : Bool :=
  let u := dropFinalLf s
  !u.isEmpty && u.all Char.isDigit

/-- `re.match(r"\d{,76}$", s) is not None`: at most 76 digits spanning
the whole string; the empty string matches. -/
def matchDecimalMax76 (s : Bytes) : Bool :=
  let u := dropFinalLf s
  u.all Char.isDigit && u.length ≤ 76

/-- Python `int(s)` on a string of decimal digits (possibly surrounded
by whitespace, which `int` tolerates). -/
def pyIntNat (s : Bytes) : Nat :=
  (stripPy s).foldl (fun n c => n * 10 + (c.toNat - 48)) 0

/-- Python `int(s)` where the argument may fail to be a decimal
numeral, raising `ValueError` (reached by `verify` through an empty
`l=` value, which `\d{,76}$` accepts). -/
def pyIntE (s : Bytes) : Except PyErr Nat :=
  let t := stripPy s
  if !t.isEmpty && t.all Char.isDigit then .ok (pyIntNat s) else .error .valueError

/-- The `mandatory_fields` tuple. -/
def mandatoryFields : List Bytes :=
  [bs "v", bs "a", bs "b", bs "bh", bs "d", bs "h", bs "s"]

/-- The mandatory-presence loop of `validate_signature_fields`. -/
def checkMandatory (sig : TagMap) : List Bytes → Except PyErr Unit
  | [] => .ok ()
  | f :: rest =>
    if tmMem sig f then checkMandatory sig rest
    else .error (.validationError (bs "signature missing " ++ f ++ bs "="))

/-- `validate_signature_fields(sig)`.

The `i=` branch deviates from the module's documentation: whenever the
subdomain check fails, building the error message evaluates
`"... (i=%s d=%d)" % (sig['i'], sig['d'])`, and `%d` applied to a
string raises `TypeError` before the `ValidationError` can be raised;
and when `i` equals `d`, `sig['i'][-len(sig['d'])-1]` indexes out of
range, raising `IndexError`.  The `x=` branch reads `sig['t']` without
a presence check, raising `KeyError` when `x=` is present but `t=` is
not. -/
def validate_signature_fields (sig : TagMap) : Except PyErr Unit := do
  checkMandatory sig mandatoryFields
  let v ← tmGet sig (bs "v")
  if v ≠ bs "1" then throw (.validationError (bs "v= value is not 1"))
  let b ← tmGet sig (bs "b")
  if !matchB64Tag b then throw (.validationError (bs "b= value is not valid base64"))
  let bh ← tmGet sig (bs "bh")
  if !matchB64Tag bh then throw (.validationError (bs "bh= value is not valid base64"))
  if tmMem sig (bs "i") then do
    let ival ← tmGet sig (bs "i")
    let dval ← tmGet sig (bs "d")
    if !(dval.isSuffixOf ival) then
      -- "%d" % sig['d'] on a string raises TypeError while formatting
      -- the ValidationError message.
      throw .typeError
    else if ival.length < dval.length + 1 then
      -- sig['i'][-len(sig['d'])-1] with the negative index out of range.
      throw .indexError
    else if !((bs "@.").contains (ival.getD (ival.length - dval.length - 1) ' ')) then
      throw .typeError
  if tmMem sig (bs "l") then do
    let lv ← tmGet sig (bs "l")
    if !matchDecimalMax76 lv then
      throw (.validationError (bs "l= value is not a decimal integer"))
  if tmMem sig (bs "q") then do
    let qv ← tmGet sig (bs "q")
    if qv ≠ bs "dns/txt" then throw (.validationError (bs "q= value is not dns/txt"))
  if tmMem sig (bs "t") then do
    let tv ← tmGet sig (bs "t")
    if !matchDecimal tv then
      throw (.validationError (bs "t= value is not a decimal integer"))
  if tmMem sig (bs "x") then do
    let xv ← tmGet sig (bs "x")
    if !matchDecimal xv then
      throw (.validationError (bs "x= value is not a decimal integer"))
    let tv ← tmGet sig (bs "t")
    if pyIntNat xv < pyIntNat tv then
      throw (.validationError (bs "x= value is less than t= value"))

/-- `_remove(s, t)`: excise the first occurrence of `t` from `s`; the
source `assert i >= 0` fails when `t` does not occur. -/
def removeSub (s t : Bytes) : Except PyErr Bytes :=
  match findSubIdx s t with
  | some i => .ok (s.take i ++ s.drop (i + t.length))
  | none => .error .assertionError

/-- `lastindex.get(h, default)` for the per-name cursor map. -/
def liGet (li : List (Bytes × Nat)) (k : Bytes) (d : Nat) : Nat :=
  (((li.find? (fun p => p.1 == k)).map (·.2)).getD d)

/-- `lastindex[h] = v`; prepending works because `liGet` reads the
first (most recent) binding. -/
def liSet (li : List (Bytes × Nat)) (k : Bytes) (v : Nat) : List (Bytes × Nat) :=
  (k, v) :: li

/-- The inner `while i > 0` loop of `hash_headers`: scan the header
list backward from index `i - 1`, returning the first index whose name
matches `h` case-insensitively, or `none` (in which case the loop left
`i = 0`). -/
def scanBack (headers : List Header) (h : Bytes) : Nat → Option Nat
  | 0 => none
  | i + 1 =>
    match headers.get? i with
    | some hd => if lowerB h == lowerB hd.1 then some i else scanBack headers h i
    | none => scanBack headers h i

/-- The header-selection loop of `hash_headers`: for each name of
`include_headers`, in order, scan backward from that name's cursor
(initially `len(headers)`); a match is appended to the signed list and
becomes the new cursor, otherwise the cursor drops to `0` and nothing
is appended. -/
def selectHeaders (headers : List Header) : List Bytes → List (Bytes × Nat) → List Header
  | [], _ => []
  | h :: rest, li =>
    match scanBack headers h (liGet li h headers.length) with
    | some j => ((headers.get? j).getD ([], [])) :: selectHeaders headers rest (liSet li h j)
    | none => selectHeaders headers rest (liSet li h 0)

/-- `hash_headers(hasher, canonicalize_headers, headers,
include_headers, sigheaders, sig)`.  The digest accumulator is
modelled by the byte stream fed to `hasher.update`, returned here;
`sigheaders[0]` on an empty list raises `IndexError`, `sig['b']` a
`KeyError`, and `_remove` can fail its assertion. -/
def hash_headers (canon : CanonAlg) (headers : List Header) (include_headers : List Bytes)
    (sigheaders : List Header) (sig : TagMap) : Except PyErr Bytes :=
  let sign_headers := selectHeaders headers include_headers []
  match sigheaders with
  | [] => .error .indexError
  | s0 :: _ => do
    let bval ← tmGet sig (bs "b")
    let v2 ← removeSub s0.2 bval
    let cheaders := canon.canonicalize_headers [(s0.1, v2)]
    let fedList := sign_headers ++ cheaders.map (fun x => (x.1, rstripPy x.2))
    pure (fedList.foldl (fun acc x => acc ++ x.1 ++ bs ":" ++ x.2) [])

/-- The `while len(header) > 72` loop of `fold`.  With a space in the
first 72 bytes the break eats that space; with none (`rfind` returns
`-1`, so `i = j = -1`) Python's negative slicing turns `header[:-1]`
and `header[-1:]` into "all but the last byte" and "the last byte". -/
def foldLoopGo : Nat → Bytes → Bytes → Bytes
  | 0, pre, header => pre ++ header
  | fuel + 1, pre, header =>
    if header.length > 72 then
      match rfindSubIdx (header.take 72) (bs " ") with
      | some i => foldLoopGo fuel (pre ++ header.take i ++ bs "\r\n ") (header.drop (i + 1))
      | none => foldLoopGo fuel (pre ++ header.dropLast ++ bs "\r\n ") (header.drop (header.length - 1))
    else pre ++ header

/-- The loop, entered with enough fuel for its iteration count: every
iteration shortens `header` by at least one byte, so `header.length`
iterations always reach the `len(header) <= 72` exit. -/
def foldLoop (pre header : Bytes) : Bytes := foldLoopGo header.length pre header

/-- `fold(header)`: a pre-existing `"\r\n "` marks the starting prefix;
the remainder is wrapped at column 72. -/
def fold (header : Bytes) : Bytes :=
  match rfindSubIdx header (bs "\r\n ") with
  | none => foldLoop [] header
  | some i => foldLoop (header.take (i + 3)) (header.drop (i + 3))

/-- Modelled from the spec: `parse_tag_value` of `dkim.util`, whose
source is not part of this tree.  Spec 4.A: "Split on `;`, for each
entry split on the first `=`, trim ASCII whitespace from both sides.
Fails with `InvalidTagList` when a duplicate key appears or a segment
has no `=`."  The errors surface as `InvalidTagValueList`. -/
def ptvLoop (acc : TagMap) : List Bytes → Except PyErr TagMap
  | [] => .ok acc
  | seg :: rest =>
    match findSubIdx seg (bs "=") with
    | none => .error .invalidTagValueList
    | some i =>
      let k := stripPy (seg.take i)
      let v := stripPy (seg.drop (i + 1))
      if tmMem acc k then .error .invalidTagValueList
      else ptvLoop (acc ++ [(k, v)]) rest

/-- Modelled from the spec: `parse_tag_value` (see `ptvLoop`). -/
def parse_tag_value (s : Bytes) : Except PyErr TagMap :=
  ptvLoop [] (s.splitOn ';')

/-- Close one piece of `re.split(r"\s*:\s*", s)`.  A piece that is
followed by a colon loses the whitespace run the separator absorbs
before the colon (`rstrip`); every piece after a colon loses the run
the separator absorbed after it (`lstrip`), applied when the piece is
emitted. -/
def swcFinish (first colonFollows : Bool) (accRev : Bytes) : Bytes :=
  let p := accRev.reverse
  let p := if first then p else p.dropWhile isPyWsp
  if colonFollows then rstripPy p else p

/-- Scanner for `re.split(r"\s*:\s*", s)`: split at every colon and
absorb the whitespace runs adjacent to it. -/
def swcGo (first : Bool) (accRev : Bytes) : Bytes → List Bytes
  | [] => [swcFinish first false accRev]
  | c :: r =>
    if c = ':' then swcFinish first true accRev :: swcGo false [] r
    else swcGo first (c :: accRev) r

/-- `re.split(r"\s*:\s*", s)`, used on the `h=` tag. -/
def splitWsColon (s : Bytes) : List Bytes := swcGo true [] s

/-- The regex class `\w` = `[A-Za-z0-9_]`. -/
def isWordChar (c : Char) : Bool := c.isAlpha || c.isDigit || c == '_'

/-- `re.match("(\w+)(?:/(\w+))?$", c)`: one `\w` run, optionally a
slash and a second run, spanning the string (`$` again also matches
before one final newline).  Returns the two canonicalization names,
the second defaulting to "simple" as in `verify`. -/
def cMatch (s : Bytes) : Option (Bytes × Bytes) :=
  let u := dropFinalLf s
  match u.splitOn '/' with
  | [g1] => if !g1.isEmpty && g1.all isWordChar then some (g1, bs "simple") else none
  | [g1, g2] =>
    if !g1.isEmpty && g1.all isWordChar && !g2.isEmpty && g2.all isWordChar then
      some (g1, g2)
    else none
  | _ => none

/-- The base64 alphabet in index order. -/
def b64Alphabet : Bytes := bs "ABCDEFGHIJKLMNOPQRSTUVWXYZabcdefghijklmnopqrstuvwxyz0123456789+/"

/-- The base64 digit of a sextet. -/
def b64Digit (n : Nat) : Char := b64Alphabet.getD n 'A'

/-- The sextet of a base64 digit. -/
def b64Val (c : Char) : Option Nat := b64Alphabet.findIdx? (· == c)

/-- `base64.b64encode(s)`: standard base64 with `=` padding, bytes
being the code points of the characters. -/
def b64encode : Bytes → Bytes
  | [] => []
  | [a] =>
    [b64Digit (a.toNat / 4), b64Digit (a.toNat % 4 * 16), '=', '=']
  | [a, b] =>
    [b64Digit (a.toNat / 4), b64Digit (a.toNat % 4 * 16 + b.toNat / 16),
     b64Digit (b.toNat % 16 * 4), '=']
  | a :: b :: c :: rest =>
    b64Digit (a.toNat / 4) :: b64Digit (a.toNat % 4 * 16 + b.toNat / 16) ::
    b64Digit (b.toNat % 16 * 4 + c.toNat / 64) :: b64Digit (c.toNat % 64) ::
    b64encode rest

/-- Strict base64 decoding of complete quads, `=`-padding allowed only
at the end.  The callers in `verify` only reach it with characters
drawn from the base64 class. -/
def b64decodeLoop : Bytes → Option Bytes
  | [] => some []
  | [a, b, '=', '='] => do
    let va ← b64Val a
    let vb ← b64Val b
    some [Char.ofNat (va * 4 + vb / 16)]
  | [a, b, c, '='] => do
    let va ← b64Val a
    let vb ← b64Val b
    let vc ← b64Val c
    some [Char.ofNat (va * 4 + vb / 16), Char.ofNat (vb % 16 * 16 + vc / 4)]
  | a :: b :: c :: d :: rest => do
    let va ← b64Val a
    let vb ← b64Val b
    let vc ← b64Val c
    let vd ← b64Val d
    let r ← b64decodeLoop rest
    some (Char.ofNat (va * 4 + vb / 16) :: Char.ofNat (vb % 16 * 16 + vc / 4) ::
          Char.ofNat (vc % 4 * 64 + vd) :: r)
  | _ => none

/-- `base64.b64decode(s)`: in Python 2 incorrect padding raises
`TypeError`. -/
def b64decode (s : Bytes) : Except PyErr Bytes :=
  match b64decodeLoop s with
  | some r => .ok r
  | none => .error .typeError

/-- Modelled from the spec: the interface of `dkim.crypto` (spec 6.3)
and the `hashlib` digests, whose sources are not part of this tree.  A
digest object is modelled by the byte stream fed to `update`; a hash
function maps that stream to the digest bytes.  Keys are reduced to
the exponent/modulus pairs the source extracts from them. -/
structure CryptoAdapter where
  sha1 : Bytes → Bytes
  sha256 : Bytes → Bytes
  /-- `parse_pem_private_key`: (privateExponent, modulus) or `UnparsableKeyError`. -/
  parse_pem_private_key : Bytes → Except Bytes (Nat × Nat)
  /-- `parse_public_key` over DER bytes: (publicExponent, modulus) or `UnparsableKeyError`. -/
  parse_public_key : Bytes → Except Bytes (Nat × Nat)
  /-- `RSASSA_PKCS1_v1_5_sign(digest, privateExponent, modulus)`; the error is `DigestTooLargeError`. -/
  RSASSA_PKCS1_v1_5_sign : Bytes → Nat → Nat → Except Unit Bytes
  /-- `RSASSA_PKCS1_v1_5_verify(digest, signature, publicExponent, modulus)`. -/
  RSASSA_PKCS1_v1_5_verify : Bytes → Bytes → Nat → Nat → Except Unit Bool

/-- The `identity`/`domain` precondition of `sign` (its only use of
`identity` before the tag list is built): a pure suffix test. -/
def signIdentityGuard (identity : Option Bytes) (domain : Bytes) : Except PyErr Unit :=
  match identity with
  | some ident =>
    if !(domain.isSuffixOf ident) then .error (.parameterError (bs "identity must end with domain"))
    else .ok ()
  | none => .ok ()

/-- `sign(message, selector, domain, privkey, identity, canonicalize,
include_headers, length)`.  `A` supplies the external crypto module
and `now` the value of `int(time.time())`; the logger only records
diagnostics and carries no data flow. -/
def sign (A : CryptoAdapter) (now : Nat) (message selector domain privkey : Bytes)
    (identity : Option Bytes) (canonicalize : CanonAlg × CanonAlg)
    (include_headers : Option (List Bytes)) (lengthTag : Bool) : Except PyErr Bytes := do
  let parsed ← rfc822_parse message
  let pk ← match A.parse_pem_private_key privkey with
    | .ok pk => pure pk
    | .error e => throw (.keyFormatError e)
  signIdentityGuard identity domain
  let headers := canonicalize.1.canonicalize_headers parsed.1
  let includeNames : List Bytes := match include_headers with
    | none => headers.map (fun x => lowerB x.1)
    | some ih => ih.map lowerB
  let sign_headers := headers.filter (fun (x : Header) => includeNames.contains (lowerB x.1))
  let body := canonicalize.2.canonicalize_body parsed.2
  let bodyhash := b64encode (A.sha256 body)
  let sigfields : List (Bytes × Bytes) :=
    [(bs "v", bs "1"), (bs "a", bs "rsa-sha256"),
     (bs "c", canonicalize.1.algName ++ bs "/" ++ canonicalize.2.algName),
     (bs "d", domain),
     (bs "i", match identity with | some i => i | none => bs "@" ++ domain)]
    ++ (if lengthTag then [(bs "l", bs (toString body.length))] else [])
    ++ [(bs "q", bs "dns/txt"), (bs "s", selector), (bs "t", bs (toString now)),
        (bs "h", List.intercalate (bs " : ") (sign_headers.map (·.1))),
        (bs "bh", bodyhash), (bs "b", [])]
  let sig_value := fold (List.intercalate (bs "; ") (sigfields.map (fun x => x.1 ++ bs "=" ++ x.2)))
  let dkim0 := (canonicalize.1.canonicalize_headers
    [(bs "DKIM-Signature", bs " " ++ sig_value)]).headD ([], [])
  let dkim_header := if (bs "\r\n").isSuffixOf dkim0.2
    then (dkim0.1, dkim0.2.dropLast.dropLast) else dkim0
  let fed := (sign_headers ++ [dkim_header]).foldl
    (fun acc x => acc ++ x.1 ++ bs ":" ++ x.2) []
  let sig2 ← match A.RSASSA_PKCS1_v1_5_sign (A.sha256 fed) pk.1 pk.2 with
    | .ok s2 => pure s2
    | .error _ => throw (.parameterError (bs "digest too large for modulus"))
  pure (bs "DKIM-Signature: " ++ sig_value ++ b64encode sig2 ++ bs "\r\n")

/-- `verify(message, logger, dnsfunc)`.  `A` supplies the external
crypto module; `dnsfunc` maps a DNS name to the TXT string or `None`.
Only `InvalidTagValueList`, `ValidationError`, `UnparsableKeyError`
and `DigestTooLargeError` are caught by the source; everything else
propagates as an exception. -/
def verify (A : CryptoAdapter) (dnsfunc : Bytes → Option Bytes) (message : Bytes) :
    Except PyErr Bool := do
  let parsed ← rfc822_parse message
  let headers0 := parsed.1
  let body0 := parsed.2
  let sigheaders := headers0.filter (fun x => lowerB x.1 == bs "dkim-signature")
  match sigheaders with
  | [] => pure false
  | s0 :: _ =>
    match parse_tag_value s0.2 with
    | .error _ => pure false
    | .ok sig =>
      match validate_signature_fields sig with
      | .error (.validationError _) => pure false
      | .error e => throw e
      | .ok () => do
        let cval ← tmGet sig (bs "c")
        match cMatch cval with
        | none => pure false
        | some (canH, canB) =>
          let chAlg : Option CanonAlg :=
            if canH = bs "simple" then some .simple
            else if canH = bs "relaxed" then some .relaxed else none
          match chAlg with
          | none => pure false
          | some ch => do
            let headers := ch.canonicalize_headers headers0
            let cbAlg : Option CanonAlg :=
              if canB = bs "simple" then some .simple
              else if canB = bs "relaxed" then some .relaxed else none
            match cbAlg with
            | none => pure false
            | some cb => do
              let body1 := cb.canonicalize_body body0
              let aval ← tmGet sig (bs "a")
              let hasher : Option (Bytes → Bytes) :=
                if aval = bs "rsa-sha1" then some A.sha1
                else if aval = bs "rsa-sha256" then some A.sha256 else none
              match hasher with
              | none => pure false
              | some hashfn => do
                let body2 ← match tmFind sig (bs "l") with
                  | some lv => do
                    let n ← pyIntE lv
                    pure (body1.take n)
                  | none => pure body1
                let bodyhash := hashfn body2
                let bhval ← tmGet sig (bs "bh")
                let expected ← b64decode (bhval.filter (fun c => !isPyWsp c))
                if bodyhash ≠ expected then pure false else do
                  let sval ← tmGet sig (bs "s")
                  let dval ← tmGet sig (bs "d")
                  match dnsfunc (sval ++ bs "._domainkey." ++ dval ++ bs ".") with
                  | none => pure false
                  | some txt =>
                    if txt.isEmpty then pure false else
                    match parse_tag_value txt with
                    | .error _ => pure false
                    | .ok pub => do
                      let pval ← tmGet pub (bs "p")
                      let der ← b64decode pval
                      match A.parse_public_key der with
                      | .error _ => pure false
                      | .ok pk => do
                        let hval ← tmGet sig (bs "h")
                        let include_headers := splitWsColon hval
                        let fed ← hash_headers ch headers include_headers sigheaders sig
                        let bval ← tmGet sig (bs "b")
                        let signature ← b64decode (bval.filter (fun c => !isPyWsp c))
                        match A.RSASSA_PKCS1_v1_5_verify (hashfn fed) signature pk.1 pk.2 with
                        | .ok r => pure r
                        | .error _ => pure false

/-- The byte stream a list of headers feeds to a digest: for each pair,
`name`, ":", `value`, with no separators between headers. -/
def feedStream (hs : List Header) : Bytes :=
  hs.foldl (fun acc x => acc ++ x.1 ++ bs ":" ++ x.2) []

/-- Written from the spec's words (4.E steps 3-4), for comparison with
`hash_headers`: "For every element of the signed list except the last,
strip trailing whitespace from the value (rstrip).  The last - the
DKIM-Signature itself - is fed as-is without its terminal CRLF." -/
def spec_hash_headers (canon : CanonAlg) (headers : List Header) (include_headers : List Bytes)
    (sigheaders : List Header) (sig : TagMap) : Except PyErr Bytes :=
  let sign_headers := selectHeaders headers include_headers []
  match sigheaders with
  | [] => .error .indexError
  | s0 :: _ => do
    let bval ← tmGet sig (bs "b")
    let v2 ← removeSub s0.2 bval
    let cheaders := canon.canonicalize_headers [(s0.1, v2)]
    let dropCrlf := fun (v : Bytes) =>
      if (bs "\r\n").isSuffixOf v then v.dropLast.dropLast else v
    pure (feedStream (sign_headers.map (fun x => (x.1, rstripPy x.2))
      ++ cheaders.map (fun x => (x.1, dropCrlf x.2))))

/-- A concrete, deterministic instantiation of the external crypto
module, used to evaluate the pipelines on closed inputs: hashes are
tagged copies of the fed stream and the RSA signature is a marked copy
of the FULL digest, so that verification succeeds exactly when the
verifier's recomputed digest equals the signer's, byte for byte. -/
def fixedAdapter : CryptoAdapter where
  sha1 := fun b => bs "one" ++ b
  sha256 := fun b => bs "two" ++ b
  parse_pem_private_key := fun _ => .ok (7, 77)
  parse_public_key := fun _ => .ok (3, 77)
  RSASSA_PKCS1_v1_5_sign := fun digest _ _ => .ok (bs "%%" ++ digest)
  RSASSA_PKCS1_v1_5_verify := fun digest s _ _ => .ok (s == bs "%%" ++ digest)

/-- The resolver of the round-trip scenario: every query returns the
fixed TXT record carrying the public key. -/
def staticDns (pubder : Bytes) : Bytes → Option Bytes :=
  fun _ => some (bs "k=rsa; p=" ++ b64encode pubder)

/-- The value of one tag of the signature header emitted by `sign`:
the header line without its "DKIM-Signature: " prefix is parsed back as
a tag list and the tag is looked up. -/
def signedTag (A : CryptoAdapter) (now : Nat) (message selector domain privkey : Bytes)
    (identity : Option Bytes) (canonicalize : CanonAlg × CanonAlg)
    (include_headers : Option (List Bytes)) (lengthTag : Bool) (k : Bytes) : Option Bytes :=
  match sign A now message selector domain privkey identity canonicalize include_headers lengthTag with
  | .ok out =>
    match parse_tag_value (out.drop 16) with
    | .ok m => tmFind m k
    | .error _ => none
  | .error _ => none

/-! Verification predicates used by the idempotence development. -/

/-- The shape invariant of collapsed text: every character of the
whitespace class is a plain space and no two class characters are
adjacent.  `collapseGo` leaves such text unchanged. -/
def CollapsedOk (cls : Char → Bool) (w : Bytes) : Prop :=
  (∀ c ∈ w, cls c = true → c = ' ') ∧
    w.Chain' (fun a b => ¬(cls a = true ∧ cls b = true))

/-- The byte string ends with a "\r\n". -/
def EndsCRLF (s : Bytes) : Prop := ∃ t, s = t ++ ['\r', '\n']

/-- Scanner deciding whether the string contains a tab-or-space byte
immediately followed by "\r\n" (a match of `[\x09\x20]+\r\n`). -/
def hasWspCrlf : Bytes → Bool
  | a :: b :: c :: t => (isHWsp a && (b == '\r') && (c == '\n')) || hasWspCrlf (b :: c :: t)
  | _ => false

/-- `k` copies of the two-byte block "\n\r" (a run of "\r\n" pairs as
seen from the reversed end of a string). -/
def nrPairs : Nat → Bytes
  | 0 => []
  | k + 1 => '\n' :: '\r' :: nrPairs k

/-- `k` copies of "\r\n". -/
def crlfPairs : Nat → Bytes
  | 0 => []
  | k + 1 => '\r' :: '\n' :: crlfPairs k

/-! Helper lemmas about the canonicalizers. -/

theorem bs_crlf : bs "\r\n" = ['\r', '\n'] := rfl

theorem bs_crlf5 : bs "\r\n\n\r\n" = ['\r', '\n', '\n', '\r', '\n'] := rfl

theorem stripPairsRev_pair (t : Bytes) :
    stripPairsRev ('\n' :: '\r' :: t) = stripPairsRev t := by
  simp [stripPairsRev]

theorem stripPairsRev_eq_self {l : Bytes} (h : ∀ t, l ≠ '\n' :: '\r' :: t) :
    stripPairsRev l = l := by
  match l with
  | [] => rfl
  | [c] => rfl
  | c :: d :: t =>
    have hcd : ¬(c = '\n' ∧ d = '\r') := by
      rintro ⟨rfl, rfl⟩; exact h t rfl
    simp only [stripPairsRev, if_neg hcd]

theorem stripPairsRev_no_pair : ∀ (r t : Bytes), stripPairsRev r ≠ '\n' :: '\r' :: t
  | [], t => by simp [stripPairsRev]
  | [c], t => by simp [stripPairsRev]
  | c :: d :: t', t => by
    by_cases h : c = '\n' ∧ d = '\r'
    · obtain ⟨rfl, rfl⟩ := h
      rw [stripPairsRev_pair]
      exact stripPairsRev_no_pair t' t
    · simp only [stripPairsRev, if_neg h]
      intro he
      injection he with h1 h2
      injection h2 with h2 _
      exact h ⟨h1, h2⟩

theorem subTrailingCrlf_fix_crlf (Z : Bytes) (hZ : ∀ t, Z ≠ '\n' :: '\r' :: t) :
    subTrailingCrlf (Z.reverse ++ bs "\r\n") = Z.reverse ++ bs "\r\n" := by
  have hrev : (Z.reverse ++ bs "\r\n").reverse = '\n' :: '\r' :: Z := by
    simp [bs_crlf]
  unfold subTrailingCrlf
  rw [hrev]
  rw [if_neg (by simp)]
  rw [stripPairsRev_pair, stripPairsRev_eq_self hZ]

theorem subTrailingCrlf_fix_bare (Z : Bytes) :
    subTrailingCrlf (Z.reverse ++ bs "\r\n\n\r\n") = Z.reverse ++ bs "\r\n\n\r\n" := by
  have hrev : (Z.reverse ++ bs "\r\n\n\r\n").reverse = '\n' :: '\r' :: '\n' :: '\n' :: '\r' :: Z := by
    simp [bs_crlf5]
  unfold subTrailingCrlf
  rw [hrev]
  rw [if_neg (by simp)]
  rw [stripPairsRev_pair]
  rw [stripPairsRev_eq_self (l := '\n' :: '\n' :: '\r' :: Z) ?_]
  · simp [bs_crlf, bs_crlf5]
  · intro t he
    injection he with _ h2
    injection h2 with hc _
    exact absurd hc (by decide)

theorem char_toNat_ofNat {n : Nat} (h : n < 55296) : (Char.ofNat n).toNat = n := by
  have hv : n.isValidChar := Or.inl h
  simp [Char.ofNat, Char.ofNatAux, Char.toNat, hv]
  simp [UInt32.toNat, BitVec.toNat_ofNatLt]

theorem lowerC_idem (c : Char) : lowerC (lowerC c) = lowerC c := by
  unfold lowerC
  by_cases h : 65 ≤ c.toNat ∧ c.toNat ≤ 90
  · rw [if_pos h]
    have ht : (Char.ofNat (c.toNat + 32)).toNat = c.toNat + 32 :=
      char_toNat_ofNat (by omega)
    rw [if_neg (by rw [ht]; omega)]
  · rw [if_neg h, if_neg h]

theorem lowerB_idem (n : Bytes) : lowerB (lowerB n) = lowerB n := by
  unfold lowerB
  rw [List.map_map]
  exact List.map_congr_left (fun c _ => lowerC_idem c)

theorem collapsedOk_nil (cls : Char → Bool) : CollapsedOk cls [] :=
  ⟨by simp, by simp⟩

theorem collapsedOk_tail {cls : Char → Bool} {c : Char} {t : Bytes}
    (h : CollapsedOk cls (c :: t)) : CollapsedOk cls t :=
  ⟨fun x hx hc => h.1 x (List.mem_cons_of_mem c hx) hc, (List.chain'_cons'.mp h.2).2⟩

theorem collapseGo_true_eq (cls : Char → Bool) :
    ∀ t : Bytes, collapseGo cls true t = collapseGo cls false (t.dropWhile cls)
  | [] => rfl
  | c :: r => by
    by_cases hc : cls c = true
    · rw [show collapseGo cls true (c :: r) = collapseGo cls true r from by
        simp [collapseGo, hc]]
      rw [List.dropWhile_cons_of_pos hc]
      exact collapseGo_true_eq cls r
    · rw [List.dropWhile_cons_of_neg hc]
      simp [collapseGo, hc]

theorem collapseGo_false_head {cls : Char → Bool} (hsp : cls ' ' = true) {t : Bytes} {x : Char}
    (h : (collapseGo cls false t).head? = some x) (hx : cls x = false) :
    t.head? = some x := by
  match t with
  | [] => simp [collapseGo] at h
  | c :: r =>
    by_cases hc : cls c = true
    · rw [show collapseGo cls false (c :: r) = ' ' :: collapseGo cls true r from by
        simp [collapseGo, hc]] at h
      simp only [List.head?_cons, Option.some.injEq] at h
      rw [← h, hsp] at hx
      exact absurd hx (by simp)
    · rw [show collapseGo cls false (c :: r) = c :: collapseGo cls false r from by
        simp [collapseGo, hc]] at h
      simpa using h

theorem collapseGo_true_head_not_cls {cls : Char → Bool} :
    ∀ (r : Bytes) {x : Char}, (collapseGo cls true r).head? = some x → cls x = false
  | [], x => by simp [collapseGo]
  | c :: r, x => by
    by_cases hc : cls c = true
    · rw [show collapseGo cls true (c :: r) = collapseGo cls true r from by
        simp [collapseGo, hc]]
      exact collapseGo_true_head_not_cls r
    · rw [show collapseGo cls true (c :: r) = c :: collapseGo cls false r from by
        simp [collapseGo, hc]]
      intro h
      simp only [List.head?_cons, Option.some.injEq] at h
      rw [← h]
      simpa using hc

theorem collapsedOk_out {cls : Char → Bool} :
    ∀ (ir : Bool) (r : Bytes), CollapsedOk cls (collapseGo cls ir r) := by
  intro ir r
  induction ir, r using collapseGo.induct cls with
  | case1 ir => simpa [collapseGo] using collapsedOk_nil cls
  | case2 c rest hc ih =>
    rw [show collapseGo cls true (c :: rest) = collapseGo cls true rest from by
      simp [collapseGo, hc]]
    exact ih
  | case3 ir c rest hc hir ih =>
    rw [show collapseGo cls ir (c :: rest) = ' ' :: collapseGo cls true rest from by
      cases ir <;> simp_all [collapseGo]]
    constructor
    · intro x hx _
      rcases List.mem_cons.mp hx with rfl | hx2
      · rfl
      · exact ih.1 x hx2 (by assumption)
    · rw [List.chain'_cons']
      refine ⟨?_, ih.2⟩
      intro y hy
      have : cls y = false := collapseGo_true_head_not_cls rest hy
      simp [this]
  | case4 ir c rest hc ih =>
    rw [show collapseGo cls ir (c :: rest) = c :: collapseGo cls false rest from by
      cases ir <;> simp_all [collapseGo]]
    constructor
    · intro x hx hcx
      rcases List.mem_cons.mp hx with rfl | hx2
      · exact absurd hcx (by simpa using hc)
      · exact ih.1 x hx2 hcx
    · rw [List.chain'_cons']
      refine ⟨?_, ih.2⟩
      intro y _
      simp [show cls c = false from by simpa using hc]

theorem collapseGo_id {cls : Char → Bool} (hsp : cls ' ' = true) :
    ∀ (w : Bytes), CollapsedOk cls w → collapseGo cls false w = w
  | [], _ => rfl
  | c :: t, h => by
    by_cases hc : cls c = true
    · have hcsp : c = ' ' := h.1 c (by simp) hc
      subst hcsp
      rw [show collapseGo cls false (' ' :: t) = ' ' :: collapseGo cls true t from by
        simp [collapseGo, hsp]]
      rw [collapseGo_true_eq]
      have hdt : t.dropWhile cls = t := by
        match t with
        | [] => rfl
        | d :: t' =>
          have hrel := (List.chain'_cons'.mp h.2).1 d (by simp)
          have hd : cls d = false := by
            by_cases hdd : cls d = true
            · exact absurd ⟨hsp, hdd⟩ hrel
            · simpa using hdd
          rw [List.dropWhile_cons_of_neg (by simp [hd])]
      rw [hdt]
      rw [collapseGo_id hsp t (collapsedOk_tail h)]
    · rw [show collapseGo cls false (c :: t) = c :: collapseGo cls false t from by
        simp [collapseGo, hc]]
      rw [collapseGo_id hsp t (collapsedOk_tail h)]

theorem dropWhile_head_not {p : Char → Bool} :
    ∀ (l : Bytes) {x : Char}, (l.dropWhile p).head? = some x → p x = false
  | [], x => by simp
  | c :: t, x => by
    by_cases hc : p c = true
    · rw [List.dropWhile_cons_of_pos hc]
      exact dropWhile_head_not t
    · rw [List.dropWhile_cons_of_neg (by simpa using hc)]
      intro h
      simp only [List.head?_cons, Option.some.injEq] at h
      rw [← h]
      simpa using hc

theorem dropWhile_eq_self_of_head {p : Char → Bool} {l : Bytes}
    (h : ∀ x, l.head? = some x → p x = false) : l.dropWhile p = l := by
  match l with
  | [] => rfl
  | c :: t => exact List.dropWhile_cons_of_neg (by simp [h c rfl])

theorem stripPy_idem (w : Bytes) : stripPy (stripPy w) = stripPy w := by
  unfold stripPy
  set u := w.dropWhile isPyWsp with hu
  set u2 := u.reverse.dropWhile isPyWsp with hu2
  have h1 : u2.reverse.dropWhile isPyWsp = u2.reverse := by
    apply dropWhile_eq_self_of_head
    intro x hx
    rw [List.head?_reverse] at hx
    -- x is the last element of u2, i.e. the last of u.reverse's
    -- whitespace-stripped suffix; u2 is a suffix of u.reverse, so its
    -- last element is the last of u.reverse, i.e. the head of u.
    have hsuf : u2 <:+ u.reverse := List.dropWhile_suffix isPyWsp
    obtain ⟨t, ht⟩ := hsuf
    have hne : u2 ≠ [] := by
      intro he
      rw [he] at hx
      simp at hx
    have hx2 : (t ++ u2).getLast? = some x := by
      rw [List.getLast?_append_of_ne_nil t hne]
      exact hx
    rw [ht, List.getLast?_reverse] at hx2
    exact dropWhile_head_not w hx2
  rw [h1]
  have h2 : u2.reverse.reverse.dropWhile isPyWsp = u2.reverse.reverse := by
    apply dropWhile_eq_self_of_head
    intro x hx
    rw [List.reverse_reverse] at hx
    exact dropWhile_head_not u.reverse hx
  rw [h2]
  simp [List.reverse_reverse]

theorem mem_stripPy {x : Char} {w : Bytes} (h : x ∈ stripPy w) : x ∈ w := by
  unfold stripPy at h
  rw [List.mem_reverse] at h
  have h2 := (List.dropWhile_sublist isPyWsp).mem h
  rw [List.mem_reverse] at h2
  exact (List.dropWhile_sublist isPyWsp).mem h2

theorem chain'_reverse_of {R : Char → Char → Prop}
    (hsym : ∀ a b, R a b → R b a) {l : Bytes} (h : l.Chain' R) :
    l.reverse.Chain' R := by
  rw [List.chain'_reverse]
  exact h.imp (fun a b hab => hsym a b hab)

theorem stripPy_collapsedOk {cls : Char → Bool} {w : Bytes}
    (h : CollapsedOk cls w) : CollapsedOk cls (stripPy w) := by
  have hsym : ∀ a b, (fun a b => ¬(cls a = true ∧ cls b = true)) a b →
      (fun a b => ¬(cls a = true ∧ cls b = true)) b a := by
    intro a b hab ⟨h1, h2⟩
    exact hab ⟨h2, h1⟩
  refine ⟨fun x hx => h.1 x (mem_stripPy hx), ?_⟩
  unfold stripPy
  apply chain'_reverse_of hsym
  exact ((chain'_reverse_of hsym (h.2.suffix (List.dropWhile_suffix isPyWsp))).suffix
    (List.dropWhile_suffix isPyWsp))

theorem removeCrlf_cons_ne {c : Char} (hc : c ≠ '\r') :
    ∀ t : Bytes, removeCrlf (c :: t) = c :: removeCrlf t
  | [] => by simp [removeCrlf]
  | d :: t' => by
    simp only [removeCrlf, if_neg (fun h : c = '\r' ∧ d = '\n' => hc h.1)]

theorem removeCrlf_append_no_cr {w : Bytes} (h : '\r' ∉ w) (z : Bytes) :
    removeCrlf (w ++ z) = w ++ removeCrlf z := by
  induction w with
  | nil => simp
  | cons c w' ih =>
    have hc : c ≠ '\r' := fun he => h (he ▸ List.mem_cons_self c w')
    rw [List.cons_append, removeCrlf_cons_ne hc]
    rw [ih (fun hm => h (List.mem_cons_of_mem c hm))]
    simp

theorem relaxed_value_idem (v : Bytes) :
    stripPy (collapsePyWsp (removeCrlf (stripPy (collapsePyWsp (removeCrlf v)) ++ bs "\r\n")))
      = stripPy (collapsePyWsp (removeCrlf v)) := by
  have hsp : isPyWsp ' ' = true := rfl
  set X := collapsePyWsp (removeCrlf v) with hX
  have hQX : CollapsedOk isPyWsp X := collapsedOk_out false (removeCrlf v)
  have hQw : CollapsedOk isPyWsp (stripPy X) := stripPy_collapsedOk hQX
  have hnr : '\r' ∉ stripPy X := by
    intro hmem
    have := hQw.1 '\r' hmem rfl
    exact absurd this (by decide)
  rw [removeCrlf_append_no_cr hnr]
  rw [show removeCrlf (bs "\r\n") = [] from rfl, List.append_nil]
  rw [show collapsePyWsp (stripPy X) = stripPy X from collapseGo_id hsp _ hQw]
  exact stripPy_idem X

theorem relaxed_headers_idem (hs : List Header) :
    Relaxed.canonicalize_headers (Relaxed.canonicalize_headers hs)
      = Relaxed.canonicalize_headers hs := by
  unfold Relaxed.canonicalize_headers
  rw [List.map_map]
  apply List.map_congr_left
  intro x _
  simp only [Function.comp]
  rw [lowerB_idem, relaxed_value_idem]

theorem endsCRLF_append {s : Bytes} (x : Bytes) (h : EndsCRLF s) : EndsCRLF (x ++ s) := by
  obtain ⟨t, rfl⟩ := h
  exact ⟨x ++ t, by rw [List.append_assoc]⟩

theorem endsCRLF_cons {s : Bytes} (c : Char) (h : EndsCRLF s) : EndsCRLF (c :: s) := by
  obtain ⟨t, rfl⟩ := h
  exact ⟨c :: t, rfl⟩

theorem endsCRLF_not_nil : ¬ EndsCRLF [] := by
  rintro ⟨t, ht⟩
  simp at ht

theorem endsCRLF_cases {c : Char} {s : Bytes} (h : EndsCRLF (c :: s)) :
    (c = '\r' ∧ s = ['\n']) ∨ EndsCRLF s := by
  obtain ⟨t, ht⟩ := h
  match t, ht with
  | [], ht =>
    simp only [List.nil_append, List.cons.injEq] at ht
    exact Or.inl ⟨ht.1, ht.2⟩
  | a :: t', ht =>
    simp only [List.cons_append, List.cons.injEq] at ht
    exact Or.inr ⟨t', ht.2⟩

theorem endsCRLF_rev {y : Bytes} (h : EndsCRLF y) :
    ∃ z, y.reverse = '\n' :: '\r' :: z := by
  obtain ⟨t, rfl⟩ := h
  exact ⟨t.reverse, by simp⟩

theorem hwc_cons_false {c : Char} {t : Bytes} (h : hasWspCrlf (c :: t) = false) :
    hasWspCrlf t = false := by
  match t with
  | [] => rfl
  | [d] => rfl
  | d :: e :: t' =>
    simp only [hasWspCrlf, Bool.or_eq_false_iff] at h
    exact h.2

theorem hwc_cons_not_wsp {a : Char} (ha : isHWsp a = false) (t : Bytes) :
    hasWspCrlf (a :: t) = hasWspCrlf t := by
  match t with
  | [] => rfl
  | [d] => rfl
  | d :: e :: t' => simp [hasWspCrlf, ha]

theorem hwc_append_false_right {x t : Bytes} (h : hasWspCrlf (x ++ t) = false) :
    hasWspCrlf t = false := by
  induction x with
  | nil => exact h
  | cons c x' ih => exact ih (hwc_cons_false h)

theorem hwc_mono : ∀ (x z : Bytes), hasWspCrlf x = true → hasWspCrlf (x ++ z) = true
  | [], z, h => by simp [hasWspCrlf] at h
  | [a], z, h => by simp [hasWspCrlf] at h
  | [a, b], z, h => by simp [hasWspCrlf] at h
  | a :: b :: c :: t, z, h => by
    simp only [hasWspCrlf, Bool.or_eq_true] at h
    rcases h with h | h
    · simp only [List.cons_append, hasWspCrlf, Bool.or_eq_true]
      exact Or.inl h
    · have := hwc_mono (b :: c :: t) z h
      simp only [List.cons_append, hasWspCrlf, Bool.or_eq_true]
      exact Or.inr (by simpa [List.cons_append] using this)

theorem hwc_false_of_prefix {x z : Bytes} (h : hasWspCrlf (x ++ z) = false) :
    hasWspCrlf x = false := by
  cases hx : hasWspCrlf x with
  | false => rfl
  | true => rw [hwc_mono x z hx] at h; exact h

theorem hwc_of_run :
    ∀ (run : Bytes), run.all isHWsp = true → run ≠ [] →
      ∀ z, hasWspCrlf (run ++ '\r' :: '\n' :: z) = true
  | [], _, hne, _ => absurd rfl hne
  | [w], hall, _, z => by
    simp only [List.all_cons, List.all_nil, Bool.and_true] at hall
    simp [hasWspCrlf, hall]
  | w :: w2 :: run', hall, _, z => by
    simp only [List.all_cons, Bool.and_eq_true] at hall
    have ih := hwc_of_run (w2 :: run') (by simp [hall.2.1, hall.2.2]) (by simp) z
    match run' with
    | [] =>
      simp only [List.cons_append, List.nil_append] at ih ⊢
      rw [show hasWspCrlf (w :: w2 :: '\r' :: '\n' :: z)
            = ((isHWsp w && (w2 == '\r') && ('\r' == '\n')) || hasWspCrlf (w2 :: '\r' :: '\n' :: z))
          from by simp [hasWspCrlf]]
      rw [ih]
      simp
    | w3 :: run'' =>
      simp only [List.cons_append] at ih ⊢
      rw [show hasWspCrlf (w :: w2 :: w3 :: (run'' ++ '\r' :: '\n' :: z))
            = ((isHWsp w && (w2 == '\r') && (w3 == '\n')) || hasWspCrlf (w2 :: w3 :: (run'' ++ '\r' :: '\n' :: z)))
          from by simp [hasWspCrlf]]
      rw [show hasWspCrlf (w2 :: w3 :: (run'' ++ '\r' :: '\n' :: z)) = true from by
        simpa [List.cons_append] using ih]
      simp

theorem wsp_ne_cr {b : Char} (h : isHWsp b = true) : (b == '\r') = false := by
  unfold isHWsp at h
  rcases Bool.or_eq_true_iff.mp h with h1 | h1
  · rw [show b = '\t' from by simpa using h1]; rfl
  · rw [show b = ' ' from by simpa using h1]; rfl

theorem hwc_all_wsp : ∀ {l : Bytes}, l.all isHWsp = true → hasWspCrlf l = false
  | [], _ => rfl
  | [a], _ => rfl
  | a :: b :: c :: t, h => by
    simp only [List.all_cons, Bool.and_eq_true] at h
    rw [show hasWspCrlf (a :: b :: c :: t)
          = ((isHWsp a && (b == '\r') && (c == '\n')) || hasWspCrlf (b :: c :: t)) from rfl]
    rw [wsp_ne_cr h.2.1]
    rw [hwc_all_wsp (l := b :: c :: t) (by simp [h.2.1, h.2.2])]
    simp
  | [a, b], h => rfl

theorem swbcGo_pair_eq (pend r : Bytes) :
    swbcGo pend ('\r' :: '\n' :: r) = '\r' :: '\n' :: swbcGo [] r := by
  simp [swbcGo]

theorem swbcGo_cons_eq (pend : Bytes) (c : Char) (r : Bytes)
    (hnc : ∀ r1, c = '\r' → r = '\n' :: r1 → False) :
    swbcGo pend (c :: r) =
      if isHWsp c then swbcGo (c :: pend) r
      else pend.reverse ++ c :: swbcGo [] r := by
  rw [swbcGo]
  exact hnc

theorem hwc_flush : ∀ (pendRev : Bytes) {c : Char} {T : Bytes},
    pendRev.all isHWsp = true → ¬(c = '\r' ∧ T.head? = some '\n') → isHWsp c = false →
    hasWspCrlf (c :: T) = false → hasWspCrlf (pendRev ++ (c :: T)) = false
  | [], c, T, _, _, _, h4 => h4
  | w :: rest, c, T, hall, h2, h3, h4 => by
    simp only [List.all_cons, Bool.and_eq_true] at hall
    match rest with
    | [] =>
      match T with
      | [] => rfl
      | d :: T' =>
        rw [show (([w] : Bytes) ++ c :: d :: T') = w :: c :: d :: T' from rfl]
        rw [show hasWspCrlf (w :: c :: d :: T')
              = ((isHWsp w && (c == '\r') && (d == '\n')) || hasWspCrlf (c :: d :: T')) from rfl]
        rw [h4]
        by_cases hc : c = '\r'
        · have hd : ¬ d = '\n' := fun hd => h2 ⟨hc, by rw [hd]; rfl⟩
          simp [hd]
        · simp [hc]
    | w2 :: rest' =>
      obtain ⟨x0, xs, hX⟩ : ∃ x0 xs, rest' ++ c :: T = x0 :: xs := by
        cases rest' <;> exact ⟨_, _, rfl⟩
      rw [show ((w :: w2 :: rest' : Bytes) ++ c :: T) = w :: w2 :: (rest' ++ c :: T) from rfl]
      rw [hX]
      have hw2 : isHWsp w2 = true := by
        have := hall.2
        simp only [List.all_cons, Bool.and_eq_true] at this
        exact this.1
      rw [show hasWspCrlf (w :: w2 :: x0 :: xs)
            = ((isHWsp w && (w2 == '\r') && (x0 == '\n')) || hasWspCrlf (w2 :: x0 :: xs)) from rfl]
      rw [wsp_ne_cr hw2]
      rw [show (w2 :: x0 :: xs) = ((w2 :: rest' : Bytes) ++ c :: T) from by rw [← hX]; rfl]
      rw [hwc_flush (w2 :: rest') hall.2 h2 h3 h4]
      simp

theorem swbc_endsCRLF : ∀ (pend b : Bytes), EndsCRLF b → EndsCRLF (swbcGo pend b) := by
  intro pend b
  induction pend, b using swbcGo.induct with
  | case1 pend => exact fun h => absurd h endsCRLF_not_nil
  | case2 pend r ih =>
    intro h
    rw [swbcGo_pair_eq]
    rcases endsCRLF_cases h with ⟨_, h2⟩ | h2
    · have hr : r = [] := by injection h2
      subst hr
      exact ⟨[], by simp [swbcGo]⟩
    · rcases endsCRLF_cases h2 with ⟨h3, _⟩ | h3
      · exact absurd h3 (by decide)
      · exact endsCRLF_cons _ (endsCRLF_cons _ (ih h3))
  | case3 pend c r hnc hw ih =>
    intro h
    rw [swbcGo_cons_eq pend c r hnc, if_pos hw]
    rcases endsCRLF_cases h with ⟨hc, _⟩ | h2
    · rw [hc] at hw
      exact absurd hw (by decide)
    · exact ih h2
  | case4 pend c r hnc hw ih =>
    intro h
    rw [swbcGo_cons_eq pend c r hnc, if_neg (by simpa using hw)]
    rcases endsCRLF_cases h with ⟨hc, hr⟩ | h2
    · exact absurd (hnc [] hc (by rw [hr])) not_false
    · exact endsCRLF_append _ (endsCRLF_cons _ (ih h2))

theorem swbc_head_lf : ∀ (pend b : Bytes), pend.all isHWsp = true →
    (swbcGo pend b).head? = some '\n' → pend = [] ∧ b.head? = some '\n' := by
  intro pend b
  induction pend, b using swbcGo.induct with
  | case1 pend =>
    intro hall hh
    rw [show swbcGo pend [] = pend.reverse from rfl] at hh
    match hrev : pend.reverse with
    | [] => rw [hrev] at hh; exact absurd hh (by simp)
    | c :: t =>
      rw [hrev] at hh
      simp only [List.head?_cons, Option.some.injEq] at hh
      have hmem : c ∈ pend := by
        rw [← List.mem_reverse, hrev]
        exact List.mem_cons_self c t
      have := List.all_eq_true.mp hall c hmem
      rw [hh] at this
      exact absurd this (by decide)
  | case2 pend r ih =>
    intro _ hh
    rw [swbcGo_pair_eq] at hh
    simp at hh
  | case3 pend c r hnc hw ih =>
    intro hall hh
    rw [swbcGo_cons_eq pend c r hnc, if_pos hw] at hh
    rcases ih (by simp [List.all_cons, hw, hall]) hh with ⟨h1, _⟩
    exact absurd h1 (by simp)
  | case4 pend c r hnc hw ih =>
    intro hall hh
    rw [swbcGo_cons_eq pend c r hnc, if_neg (by simpa using hw)] at hh
    match hrev : pend.reverse with
    | [] =>
      rw [hrev] at hh
      simp only [List.nil_append, List.head?_cons, Option.some.injEq] at hh
      exact ⟨by rwa [← List.reverse_eq_nil_iff], by simp [hh]⟩
    | p :: ps =>
      rw [hrev] at hh
      simp only [List.cons_append, List.head?_cons, Option.some.injEq] at hh
      have hmem : p ∈ pend := by
        rw [← List.mem_reverse, hrev]
        exact List.mem_cons_self p ps
      have := List.all_eq_true.mp hall p hmem
      rw [hh] at this
      exact absurd this (by decide)

theorem swbc_hwc_false : ∀ (pend b : Bytes), pend.all isHWsp = true →
    hasWspCrlf (swbcGo pend b) = false := by
  intro pend b
  induction pend, b using swbcGo.induct with
  | case1 pend =>
    intro hall
    rw [show swbcGo pend [] = pend.reverse from rfl]
    exact hwc_all_wsp (by simpa using hall)
  | case2 pend r ih =>
    intro _
    rw [swbcGo_pair_eq]
    rw [hwc_cons_not_wsp (by decide), hwc_cons_not_wsp (by decide)]
    exact ih rfl
  | case3 pend c r hnc hw ih =>
    intro hall
    rw [swbcGo_cons_eq pend c r hnc, if_pos hw]
    exact ih (by simp [List.all_cons, hw, hall])
  | case4 pend c r hnc hw ih =>
    intro hall
    rw [swbcGo_cons_eq pend c r hnc, if_neg (by simpa using hw)]
    apply hwc_flush pend.reverse (by simpa using hall)
    · rintro ⟨hc, hT⟩
      rcases swbc_head_lf [] r rfl hT with ⟨_, hr⟩
      match r, hr with
      | d :: r', hr =>
        simp only [List.head?_cons, Option.some.injEq] at hr
        exact hnc r' hc (by rw [hr])
    · simpa using hw
    · rw [hwc_cons_not_wsp (by simpa using hw)]
      exact ih rfl

theorem swbc_id : ∀ (pend b : Bytes), pend.all isHWsp = true →
    hasWspCrlf (pend.reverse ++ b) = false → swbcGo pend b = pend.reverse ++ b := by
  intro pend b
  induction pend, b using swbcGo.induct with
  | case1 pend =>
    intro _ _
    rw [show swbcGo pend [] = pend.reverse from rfl, List.append_nil]
  | case2 pend r ih =>
    intro hall hwcf
    match hp : pend, hall with
    | p :: ps, hall =>
      rw [hwc_of_run (p :: ps).reverse (by rw [List.all_reverse]; exact hall)
        (by simp) r] at hwcf
      exact absurd hwcf (by decide)
    | [], _ =>
      rw [swbcGo_pair_eq]
      simp only [List.reverse_nil, List.nil_append] at hwcf ⊢
      rw [ih rfl (hwc_cons_false (hwc_cons_false hwcf))]
      simp
  | case3 pend c r hnc hw ih =>
    intro hall hwcf
    rw [swbcGo_cons_eq pend c r hnc, if_pos hw]
    have harr : (c :: pend).reverse ++ r = pend.reverse ++ c :: r := by
      simp
    rw [ih (by simp [List.all_cons, hw, hall]) (by rw [harr]; exact hwcf), harr]
  | case4 pend c r hnc hw ih =>
    intro hall hwcf
    rw [swbcGo_cons_eq pend c r hnc, if_neg (by simpa using hw)]
    have hr : hasWspCrlf r = false := by
      have : pend.reverse ++ c :: r = (pend.reverse ++ [c]) ++ r := by simp
      rw [this] at hwcf
      exact hwc_append_false_right hwcf
    rw [ih rfl (by simpa using hr)]
    simp

theorem collapse_endsCRLF : ∀ (ir : Bool) (s : Bytes),
    EndsCRLF s → EndsCRLF (collapseGo isHWsp ir s) := by
  intro ir s
  induction ir, s using collapseGo.induct isHWsp with
  | case1 ir => exact fun h => absurd h endsCRLF_not_nil
  | case2 c rest hc ih =>
    intro h
    rw [show collapseGo isHWsp true (c :: rest) = collapseGo isHWsp true rest from by
      simp [collapseGo, hc]]
    rcases endsCRLF_cases h with ⟨hcr, _⟩ | h2
    · rw [hcr] at hc
      exact absurd hc (by decide)
    · exact ih h2
  | case3 ir c rest hc hir ih =>
    intro h
    rw [show collapseGo isHWsp ir (c :: rest) = ' ' :: collapseGo isHWsp true rest from by
      cases ir <;> simp_all [collapseGo]]
    rcases endsCRLF_cases h with ⟨hcr, _⟩ | h2
    · rw [hcr] at hc
      exact absurd hc (by decide)
    · exact endsCRLF_cons _ (ih h2)
  | case4 ir c rest hc ih =>
    intro h
    rw [show collapseGo isHWsp ir (c :: rest) = c :: collapseGo isHWsp false rest from by
      cases ir <;> simp_all [collapseGo]]
    rcases endsCRLF_cases h with ⟨hcr, hrest⟩ | h2
    · subst hcr
      rw [hrest]
      rw [show collapseGo isHWsp false ['\n'] = ['\n'] from by decide]
      exact ⟨[], rfl⟩
    · exact endsCRLF_cons _ (ih h2)

theorem crlfPairs_snoc : ∀ k, crlfPairs k ++ ['\r', '\n'] = '\r' :: '\n' :: crlfPairs k
  | 0 => rfl
  | k + 1 => by
    rw [show crlfPairs (k + 1) = '\r' :: '\n' :: crlfPairs k from rfl]
    simp only [List.cons_append]
    rw [crlfPairs_snoc k]

theorem nrPairs_reverse : ∀ k, (nrPairs k).reverse = crlfPairs k
  | 0 => rfl
  | k + 1 => by
    rw [show nrPairs (k + 1) = '\n' :: '\r' :: nrPairs k from rfl]
    simp only [List.reverse_cons, List.append_assoc]
    rw [nrPairs_reverse k]
    simpa using crlfPairs_snoc k

theorem stripPairsRev_decomp : ∀ (r : Bytes), ∃ k, r = nrPairs k ++ stripPairsRev r := by
  intro r
  induction r using stripPairsRev.induct with
  | case1 => exact ⟨0, rfl⟩
  | case2 c => exact ⟨0, rfl⟩
  | case3 c d t h ih =>
    obtain ⟨rfl, rfl⟩ := h
    obtain ⟨k, hk⟩ := ih
    refine ⟨k + 1, ?_⟩
    rw [stripPairsRev_pair]
    rw [show nrPairs (k + 1) = '\n' :: '\r' :: nrPairs k from rfl]
    simp only [List.cons_append, List.cons.injEq, true_and]
    exact hk
  | case4 c d t h =>
    refine ⟨0, ?_⟩
    simp only [stripPairsRev, if_neg h, nrPairs, List.nil_append]

theorem collapse_hwc_false : ∀ (s : Bytes), hasWspCrlf s = false →
    hasWspCrlf (collapseGo isHWsp false s) = false
  | [], _ => rfl
  | c :: r, h => by
    by_cases hc : isHWsp c = true
    · rw [show collapseGo isHWsp false (c :: r) = ' ' :: collapseGo isHWsp true r from by
        simp [collapseGo, hc]]
      rw [collapseGo_true_eq]
      have hur : hasWspCrlf (r.dropWhile isHWsp) = false := by
        obtain ⟨t, ht⟩ := List.dropWhile_suffix (l := r) isHWsp
        have hr : hasWspCrlf r = false := hwc_cons_false h
        rw [← ht] at hr
        exact hwc_append_false_right hr
      have hX : hasWspCrlf (collapseGo isHWsp false (r.dropWhile isHWsp)) = false :=
        collapse_hwc_false (r.dropWhile isHWsp) hur
      match hX0 : collapseGo isHWsp false (r.dropWhile isHWsp), hX with
      | [], _ => rfl
      | [x0], _ => rfl
      | x0 :: x1 :: xs, hX =>
        rw [show hasWspCrlf (' ' :: x0 :: x1 :: xs)
              = ((isHWsp ' ' && (x0 == '\r') && (x1 == '\n')) || hasWspCrlf (x0 :: x1 :: xs))
            from rfl]
        rw [hX]
        by_cases hx0 : x0 = '\r'
        · subst hx0
          by_cases hx1 : x1 = '\n'
          · -- the collapsed text starts "\r\n", so the whitespace run at
            -- the head of `c :: r` stood immediately before a "\r\n",
            -- contradicting `hasWspCrlf (c :: r) = false`.
            exfalso
            subst hx1
            have hu : (r.dropWhile isHWsp).head? = some '\r' :=
              collapseGo_false_head rfl (by rw [hX0]; rfl) (by decide)
            obtain ⟨u2, hu2⟩ : ∃ u2, r.dropWhile isHWsp = '\r' :: u2 := by
              match hdw : r.dropWhile isHWsp, hu with
              | d :: u2', hu =>
                simp only [List.head?_cons, Option.some.injEq] at hu
                exact ⟨u2', by rw [hu]⟩
            rw [hu2] at hX0
            rw [show collapseGo isHWsp false ('\r' :: u2) = '\r' :: collapseGo isHWsp false u2
                from by simp [collapseGo, show isHWsp '\r' = false from by decide]] at hX0
            have hx1h : (collapseGo isHWsp false u2).head? = some '\n' := by
              have := congrArg List.tail hX0
              simp at this
              rw [this]
              rfl
            have hu2h : u2.head? = some '\n' :=
              collapseGo_false_head rfl hx1h (by decide)
            obtain ⟨u3, hu3⟩ : ∃ u3, u2 = '\n' :: u3 := by
              match hh : u2, hu2h with
              | d :: u3', hu2h =>
                simp only [List.head?_cons, Option.some.injEq] at hu2h
                exact ⟨u3', by rw [hu2h]⟩
            have hsplit : r = r.takeWhile isHWsp ++ '\r' :: '\n' :: u3 := by
              conv_lhs => rw [← List.takeWhile_append_dropWhile (p := isHWsp) (l := r)]
              rw [hu2, hu3]
            have hrun : hasWspCrlf ((c :: r.takeWhile isHWsp) ++ '\r' :: '\n' :: u3) = true := by
              apply hwc_of_run
              · simp only [List.all_cons, Bool.and_eq_true]
                refine ⟨hc, ?_⟩
                simp only [List.all_eq_true]
                exact fun x hx => List.mem_takeWhile_imp hx
              · simp
            have hcr : hasWspCrlf (c :: r) = true := by
              rw [show c :: r = (c :: r.takeWhile isHWsp) ++ '\r' :: '\n' :: u3 from by
                rw [List.cons_append]
                exact congrArg (c :: ·) hsplit]
              exact hrun
            rw [hcr] at h
            exact absurd h (by simp)
          · simp [hx1]
        · simp [hx0]
    · rw [show collapseGo isHWsp false (c :: r) = c :: collapseGo isHWsp false r from by
        simp [collapseGo, hc]]
      rw [hwc_cons_not_wsp (by simpa using hc)]
      exact collapse_hwc_false r (hwc_cons_false h)
termination_by s => s.length
decreasing_by
  all_goals simp_wf
  all_goals
    ((try (have h1 : (r.dropWhile isHWsp).length ≤ r.length :=
      (List.dropWhile_sublist isHWsp).length_le)); omega)

theorem relaxed_body_idem {b : Bytes} (hb : EndsCRLF b) :
    Relaxed.canonicalize_body (Relaxed.canonicalize_body b) = Relaxed.canonicalize_body b := by
  have hie : EndsCRLF (swbcGo [] b) := swbc_endsCRLF [] b hb
  have hye : EndsCRLF (collapseGo isHWsp false (swbcGo [] b)) :=
    collapse_endsCRLF false (swbcGo [] b) hie
  have hihwc : hasWspCrlf (swbcGo [] b) = false := swbc_hwc_false [] b rfl
  have hyhwc : hasWspCrlf (collapseGo isHWsp false (swbcGo [] b)) = false :=
    collapse_hwc_false (swbcGo [] b) hihwc
  have hyQ : CollapsedOk isHWsp (collapseGo isHWsp false (swbcGo [] b)) :=
    collapsedOk_out false (swbcGo [] b)
  set y := collapseGo isHWsp false (swbcGo [] b) with hy
  obtain ⟨z, hzrev⟩ := endsCRLF_rev hye
  have hbranch : subTrailingCrlf y = (stripPairsRev y.reverse).reverse ++ bs "\r\n" := by
    unfold subTrailingCrlf
    rw [if_neg ?_]
    rw [hzrev]
    simp
  set Z := (stripPairsRev y.reverse).reverse with hZdef
  have hZrev : Z.reverse = stripPairsRev y.reverse := by
    rw [hZdef, List.reverse_reverse]
  obtain ⟨k, hk⟩ := stripPairsRev_decomp y.reverse
  have hydecomp : y = Z ++ crlfPairs k := by
    have h2 := congrArg List.reverse hk
    rw [List.reverse_reverse, List.reverse_append, nrPairs_reverse] at h2
    exact h2
  obtain ⟨j, rfl⟩ : ∃ j, k = j + 1 := by
    match k, hk with
    | 0, hk =>
      rw [show nrPairs 0 = [] from rfl, List.nil_append] at hk
      rw [hzrev, stripPairsRev_pair] at hk
      exact absurd hk.symm (stripPairsRev_no_pair z z)
    | j + 1, _ => exact ⟨j, rfl⟩
  have hout_sub : y = (Z ++ ['\r', '\n']) ++ crlfPairs j := by
    rw [hydecomp, show crlfPairs (j + 1) = '\r' :: '\n' :: crlfPairs j from rfl]
    simp
  have houthwc : hasWspCrlf (Z ++ ['\r', '\n']) = false := by
    apply hwc_false_of_prefix (z := crlfPairs j)
    rw [← hout_sub]
    exact hyhwc
  have houtQ : CollapsedOk isHWsp (Z ++ ['\r', '\n']) := by
    constructor
    · intro c hm hcls
      rcases List.mem_append.mp hm with hm | hm
      · exact hyQ.1 c (by rw [hydecomp]; exact List.mem_append_left _ hm) hcls
      · have hm2 : c = '\r' ∨ c = '\n' := by simpa using hm
        rcases hm2 with rfl | rfl <;> exact absurd hcls (by decide)
    · rw [List.chain'_append]
      have hch := hyQ.2
      rw [hout_sub] at hch
      refine ⟨(List.chain'_append.mp (List.chain'_append.mp hch).1).1, ?_, ?_⟩
      · simp only [List.chain'_cons, List.chain'_singleton, and_true]
        intro hand
        exact absurd hand.1 (by decide)
      · intro x _ w hw
        simp only [List.head?_cons, Option.mem_def, Option.some.injEq] at hw
        intro hand
        rw [← hw] at hand
        exact absurd hand.2 (by decide)
  have hRB : Relaxed.canonicalize_body b = Z ++ ['\r', '\n'] := by
    show subTrailingCrlf (collapseHWsp (stripWspBeforeCrlf b)) = Z ++ ['\r', '\n']
    rw [show collapseHWsp (stripWspBeforeCrlf b) = y from rfl, hbranch, bs_crlf]
  have h_inner : stripWspBeforeCrlf (Z ++ ['\r', '\n']) = Z ++ ['\r', '\n'] := by
    show swbcGo [] (Z ++ ['\r', '\n']) = Z ++ ['\r', '\n']
    have := swbc_id [] (Z ++ ['\r', '\n']) rfl (by simpa using houthwc)
    simpa using this
  have h_mid : collapseHWsp (Z ++ ['\r', '\n']) = Z ++ ['\r', '\n'] := by
    show collapseGo isHWsp false (Z ++ ['\r', '\n']) = Z ++ ['\r', '\n']
    exact collapseGo_id rfl _ houtQ
  have h_outer : subTrailingCrlf (Z ++ ['\r', '\n']) = Z ++ ['\r', '\n'] := by
    have hfix := subTrailingCrlf_fix_crlf Z.reverse ?_
    · rw [List.reverse_reverse, bs_crlf] at hfix
      exact hfix
    · rw [hZrev]
      exact stripPairsRev_no_pair y.reverse
  rw [hRB]
  show subTrailingCrlf (collapseHWsp (stripWspBeforeCrlf (Z ++ ['\r', '\n']))) = Z ++ ['\r', '\n']
  rw [h_inner, h_mid, h_outer]

theorem subTrailingCrlf_idem (s : Bytes) :
    subTrailingCrlf (subTrailingCrlf s) = subTrailingCrlf s := by
  by_cases hc : s.reverse.head? = some '\n' ∧ s.reverse.tail.head? ≠ some '\r'
  · rw [show subTrailingCrlf s = (stripPairsRev s.reverse.tail).reverse ++ bs "\r\n\n\r\n" from by
      unfold subTrailingCrlf; rw [if_pos hc]]
    exact subTrailingCrlf_fix_bare _
  · rw [show subTrailingCrlf s = (stripPairsRev s.reverse).reverse ++ bs "\r\n" from by
      unfold subTrailingCrlf; rw [if_neg hc]]
    exact subTrailingCrlf_fix_crlf _ (stripPairsRev_no_pair _)

theorem scanBack_none (headers : List Header) (nm : Bytes)
    (h : ∀ hd ∈ headers, lowerB nm ≠ lowerB hd.1) :
    ∀ i, scanBack headers nm i = none
  | 0 => rfl
  | i + 1 => by
    rw [scanBack]
    cases hg : headers.get? i with
    | none => exact scanBack_none headers nm h i
    | some hd =>
      have hne := h hd (List.get?_mem hg)
      simp only [show (lowerB nm == lowerB hd.1) = false from beq_eq_false_iff_ne.mpr hne,
        Bool.false_eq_true, if_false]
      exact scanBack_none headers nm h i

theorem splitLines_ne_nil : ∀ s : Bytes, splitLines s ≠ [] := by
  intro s
  rw [splitLines.eq_def]
  split
  · simp
  · split
    · simp
    · split
      · split
        · simp
        · split
          · simp
          · split <;> simp
      · split <;> simp

theorem feedStream_acc (hs : List Header) : ∀ acc : Bytes,
    hs.foldl (fun a x => a ++ x.1 ++ bs ":" ++ x.2) acc = acc ++ feedStream hs := by
  induction hs with
  | nil => intro acc; simp [feedStream]
  | cons h t ih =>
    intro acc
    simp only [List.foldl_cons, feedStream] at ih ⊢
    rw [ih, ih ([] ++ h.1 ++ bs ":" ++ h.2)]
    simp [List.append_assoc]

theorem feedStream_append (a b : List Header) :
    feedStream (a ++ b) = feedStream a ++ feedStream b := by
  simp only [feedStream, List.foldl_append]
  rw [show (List.foldl (fun a x => a ++ x.1 ++ bs ":" ++ x.2) [] a) = feedStream a from rfl,
    feedStream_acc]
  rfl

theorem rfindSubIdx_none_all (s pat : Bytes) (h : rfindSubIdx s pat = none) :
    ∀ i : Nat, pat.isPrefixOf (s.drop i) = false := by
  unfold rfindSubIdx at h
  rw [List.getLast?_eq_none_iff, List.filter_eq_nil_iff] at h
  have hnil : pat.isPrefixOf (s.drop s.length) = false := by
    have := h s.length (List.mem_range.mpr (by omega))
    simpa only [Bool.not_eq_true] using this
  intro i
  rcases le_or_lt i s.length with hi | hi
  · have := h i (List.mem_range.mpr (by omega))
    simpa only [Bool.not_eq_true] using this
  · rw [List.drop_eq_nil_of_le (le_of_lt hi)]
    rw [List.drop_length] at hnil
    exact hnil

theorem rfindSubIdx_none_of_all (s pat : Bytes) (h : ∀ i, pat.isPrefixOf (s.drop i) = false) :
    rfindSubIdx s pat = none := by
  unfold rfindSubIdx
  rw [List.getLast?_eq_none_iff, List.filter_eq_nil_iff]
  intro a _
  simp [h a]

theorem rfindSubIdx_none_drop (s pat : Bytes) (k : Nat) (h : rfindSubIdx s pat = none) :
    rfindSubIdx (s.drop k) pat = none := by
  apply rfindSubIdx_none_of_all
  intro i
  rw [List.drop_drop]
  exact rfindSubIdx_none_all s pat h (k + i)

theorem foldLoopGo_pre : ∀ (fuel : Nat) (pre h : Bytes),
    foldLoopGo fuel pre h = pre ++ foldLoopGo fuel [] h := by
  intro fuel
  induction fuel with
  | zero => intro pre h; simp [foldLoopGo]
  | succ n ih =>
    intro pre h
    simp only [foldLoopGo]
    by_cases hlen : h.length > 72
    · rw [if_pos hlen, if_pos hlen]
      cases hf : rfindSubIdx (h.take 72) (bs " ") with
      | some i =>
        simp only [hf]
        rw [ih (pre ++ h.take i ++ bs "\r\n "), ih ([] ++ h.take i ++ bs "\r\n ")]
        simp [List.append_assoc]
      | none =>
        simp only [hf]
        rw [ih (pre ++ h.dropLast ++ bs "\r\n "), ih ([] ++ h.dropLast ++ bs "\r\n ")]
        simp [List.append_assoc]
    · rw [if_neg hlen, if_neg hlen]
      simp

theorem foldLoopGo_fuel : ∀ (fuel : Nat) (pre h : Bytes), h.length ≤ fuel →
    foldLoopGo fuel pre h = foldLoopGo h.length pre h := by
  intro fuel
  induction fuel using Nat.strong_induction_on with
  | _ fuel ih =>
    intro pre h hle
    match fuel with
    | 0 =>
      have h0 : h.length = 0 := by omega
      rw [h0]
    | n + 1 =>
      by_cases hlen : h.length > 72
      · obtain ⟨m, hm⟩ : ∃ m, h.length = m + 1 := ⟨h.length - 1, by omega⟩
        rw [hm]
        simp only [foldLoopGo]
        rw [if_pos hlen, if_pos hlen]
        cases hf : rfindSubIdx (h.take 72) (bs " ") with
        | some i =>
          simp only [hf]
          have hd : (h.drop (i + 1)).length ≤ m := by
            rw [List.length_drop]; omega
          rw [ih n (by omega) _ _ (le_trans hd (by omega)),
            ih m (by omega) _ _ hd]
        | none =>
          simp only [hf]
          have hd : (h.drop (h.length - 1)).length ≤ m := by
            rw [List.length_drop]; omega
          rw [ih n (by omega) _ _ (le_trans hd (by omega)),
            ih m (by omega) _ _ hd]
      · match hl : h.length with
        | 0 =>
          conv_lhs => rw [foldLoopGo]
          rw [if_neg hlen]
          rfl
        | k + 1 => rw [foldLoopGo, if_neg hlen, foldLoopGo, if_neg hlen]

theorem foldLoop_short (pre h : Bytes) (hle : h.length ≤ 72) : foldLoop pre h = pre ++ h := by
  unfold foldLoop
  match hl : h.length with
  | 0 => rfl
  | n + 1 => rw [foldLoopGo, if_neg (by omega)]

/-! Claim theorems. -/

/-- C5: `hash_headers` selects headers with a per-name most-recent-first
cursor.  First conjunct: on headers A1 B1 A2 B2 A3 (arbitrary values)
with `include_headers` a, b, a, the signed sequence is A3, B2, A2.
Second conjunct: a name with no case-insensitive match in the header
list contributes nothing to the signed list. -/
theorem claim_C5_header_selection :
    (∀ v1 v2 v3 v4 v5 : Bytes,
      selectHeaders [(bs "A", v1), (bs "B", v2), (bs "A", v3), (bs "B", v4), (bs "A", v5)]
          [bs "a", bs "b", bs "a"] []
        = [(bs "A", v5), (bs "B", v4), (bs "A", v3)]) ∧
    (∀ (headers : List Header) (nm : Bytes) (li : List (Bytes × Nat)),
      (∀ hd ∈ headers, lowerB nm ≠ lowerB hd.1) →
      selectHeaders headers [nm] li = []) := by
  constructor
  · intro v1 v2 v3 v4 v5
    rfl
  · intro headers nm li h
    rw [selectHeaders, scanBack_none headers nm h]
    rfl

/-- C5, witness: the selection applied to concrete header values, and
the no-match clause applied to a header list without the name. -/
theorem claim_C5_witness :
    selectHeaders [(bs "A", bs "1"), (bs "B", bs "2"), (bs "A", bs "3"), (bs "B", bs "4"),
        (bs "A", bs "5")] [bs "a", bs "b", bs "a"] []
      = [(bs "A", bs "5"), (bs "B", bs "4"), (bs "A", bs "3")] ∧
    selectHeaders [(bs "X", bs "v")] [bs "a"] [] = [] :=
  ⟨claim_C5_header_selection.1 (bs "1") (bs "2") (bs "3") (bs "4") (bs "5"),
   claim_C5_header_selection.2 [(bs "X", bs "v")] (bs "a") [] (by decide)⟩

/-- C6: the validator does not always raise `ValidationError`.  On a
signature whose `i=` is not a subdomain of `d=`, formatting the error
message applies `%d` to a string and raises `TypeError`; `x=` present
without `t=` raises `KeyError` at `sig['t']`; `i=` equal to `d=`
raises `IndexError` on the negative index. -/
theorem claim_C6_validator_builtin_exceptions :
    validate_signature_fields
        [(bs "v", bs "1"), (bs "a", bs "rsa-sha256"), (bs "b", bs "abc"), (bs "bh", bs "abc"),
         (bs "d", bs "example.com"), (bs "h", bs "from"), (bs "s", bs "sel"),
         (bs "i", bs "user@other.example")] = .error .typeError ∧
    validate_signature_fields
        [(bs "v", bs "1"), (bs "a", bs "rsa-sha256"), (bs "b", bs "abc"), (bs "bh", bs "abc"),
         (bs "d", bs "example.com"), (bs "h", bs "from"), (bs "s", bs "sel"),
         (bs "x", bs "5")] = .error .keyError ∧
    validate_signature_fields
        [(bs "v", bs "1"), (bs "a", bs "rsa-sha256"), (bs "b", bs "abc"), (bs "bh", bs "abc"),
         (bs "d", bs "example.com"), (bs "h", bs "from"), (bs "s", bs "sel"),
         (bs "i", bs "example.com")] = .error .indexError := by
  refine ⟨by decide, by decide, by decide⟩

/-- C9: a message whose first line begins with a tab or space byte makes
`rfc822_parse` index `headers[-1]` on the empty header list, an
out-of-range access (IndexError), instead of `MessageFormatError`. -/
theorem claim_C9_rfc822_leading_continuation :
    ∀ (msg : Bytes) (c : Char) (rest : Bytes), msg = c :: rest → (c = '\t' ∨ c = ' ') →
      rfc822_parse msg = .error .indexError := by
  rintro msg c rest rfl hc
  have hcn : ¬ c = '\n' := by rcases hc with rfl | rfl <;> decide
  have hcr : ¬ c = '\r' := by rcases hc with rfl | rfl <;> decide
  have hw : isHWsp c = true := by rcases hc with rfl | rfl <;> decide
  obtain ⟨l, ls, hsl⟩ : ∃ l ls, splitLines (c :: rest) = (c :: l) :: ls := by
    match hsp : splitLines rest with
    | [] => exact absurd hsp (splitLines_ne_nil rest)
    | l :: ls =>
      refine ⟨l, ls, ?_⟩
      rw [splitLines.eq_def]
      simp only [if_neg hcn, if_neg hcr, hsp]
  unfold rfc822_parse
  rw [hsl, rfc822Loop, hw]
  simp

/-- C9, witness: the theorem applied to the message " x" (leading
space). -/
theorem claim_C9_witness : rfc822_parse (bs " x\r\nA: b\r\n") = .error .indexError :=
  claim_C9_rfc822_leading_continuation (bs " x\r\nA: b\r\n") ' ' (bs "x\r\nA: b\r\n") rfl
    (Or.inr rfl)

/-- C10: `sign`'s identity precondition is only a string-suffix test
(first two conjuncts; `sign` runs this guard as `signIdentityGuard`),
so the identity "xexample.com" with domain "example.com" passes it,
although the validator rejects that `i=`/`d=` pair as not a subdomain
during verification (third conjunct; the rejection surfaces as the
`TypeError` of the `%d` format, not as a normal return). -/
theorem claim_C10_identity_suffix_only :
    (∀ ident dom : Bytes, dom.isSuffixOf ident = true →
        signIdentityGuard (some ident) dom = .ok ()) ∧
    signIdentityGuard (some (bs "xexample.com")) (bs "example.com") = .ok () ∧
    validate_signature_fields
        [(bs "v", bs "1"), (bs "a", bs "rsa-sha256"), (bs "b", bs "abc"), (bs "bh", bs "abc"),
         (bs "d", bs "example.com"), (bs "h", bs "from"), (bs "s", bs "sel"),
         (bs "i", bs "xexample.com")] = .error .typeError := by
  refine ⟨?_, by decide, by decide⟩
  intro ident dom h
  simp [signIdentityGuard, h]

/-- C10, witness: the suffix guard applied to a well-formed identity. -/
theorem claim_C10_witness :
    signIdentityGuard (some (bs "alice@example.com")) (bs "example.com") = .ok () :=
  claim_C10_identity_suffix_only.1 (bs "alice@example.com") (bs "example.com") (by decide)

/-- C8, counterexample: two invocations of `sign` with identical
caller-supplied arguments (message, selector, domain, key, options)
return different DKIM-Signature headers when the ambient clock has
moved, because `sign` reads `time.time()` for the `t=` tag; it is not
a pure transformation of its arguments. -/
theorem claim_C8_counterexample :
    sign fixedAdapter 100 (bs "From: a\r\nTo: b\r\n\r\nhi\r\n") (bs "sel") (bs "example.com")
        (bs "PEM") none (.simple, .simple) none false
      ≠ sign fixedAdapter 200 (bs "From: a\r\nTo: b\r\n\r\nhi\r\n") (bs "sel") (bs "example.com")
        (bs "PEM") none (.simple, .simple) none false := by decide

/-- C8, amended: in the embedding, where the clock reading is an
explicit argument, every operation is a pure function of its arguments
(first conjunct, true by construction), and the clock reading is
exactly what `sign` embeds as the `t=` tag: signatures taken at times
100 and 200 carry t=100 and t=200 respectively, which is the only
source of the differing outputs of the counterexample. -/
theorem claim_C8_sign_clock_dependence :
    (∀ (A : CryptoAdapter) (now : Nat) (m s d p : Bytes) (i : Option Bytes)
        (c : CanonAlg × CanonAlg) (ih : Option (List Bytes)) (l : Bool),
      sign A now m s d p i c ih l = sign A now m s d p i c ih l) ∧
    signedTag fixedAdapter 100 (bs "From: a\r\nTo: b\r\n\r\nhi\r\n") (bs "sel")
        (bs "example.com") (bs "PEM") none (.simple, .simple) none false (bs "t")
      = some (bs "100") ∧
    signedTag fixedAdapter 200 (bs "From: a\r\nTo: b\r\n\r\nhi\r\n") (bs "sel")
        (bs "example.com") (bs "PEM") none (.simple, .simple) none false (bs "t")
      = some (bs "200") :=
  ⟨fun _ _ _ _ _ _ _ _ _ _ => rfl, by decide, by decide⟩

/-- C4, counterexample: `Relaxed.canonicalize_body` is not idempotent as
claimed.  On the body "a " (trailing space, no final CRLF) the first
pass appends "\r\n" after whitespace handling, producing "a \r\n", and
the second pass then strips the space that now stands before the CRLF,
producing "a\r\n". -/
theorem claim_C4_counterexample :
    ¬ (Relaxed.canonicalize_body (Relaxed.canonicalize_body (bs "a "))
        = Relaxed.canonicalize_body (bs "a ")) := by decide

/-- C4, amended: canonicalization is idempotent for `Simple` on every
body and every header list, and for `Relaxed` on every header list; the
body canonicalization of `Relaxed` is idempotent for every body that
already ends with "\r\n" (the counterexample shows that a body whose
final unterminated line carries trailing whitespace breaks the claim,
because the first pass appends the terminating CRLF only after the
whitespace passes ran). -/
theorem claim_C4_canonicalization_idempotence :
    (∀ b : Bytes, Simple.canonicalize_body (Simple.canonicalize_body b)
        = Simple.canonicalize_body b) ∧
    (∀ hs : List Header, Simple.canonicalize_headers (Simple.canonicalize_headers hs)
        = Simple.canonicalize_headers hs) ∧
    (∀ hs : List Header, Relaxed.canonicalize_headers (Relaxed.canonicalize_headers hs)
        = Relaxed.canonicalize_headers hs) ∧
    (∀ b : Bytes, (bs "\r\n").isSuffixOf b = true →
      Relaxed.canonicalize_body (Relaxed.canonicalize_body b)
        = Relaxed.canonicalize_body b) := by
  refine ⟨fun b => subTrailingCrlf_idem b, fun hs => rfl, relaxed_headers_idem, ?_⟩
  intro b hsuf
  obtain ⟨t, ht⟩ := List.isSuffixOf_iff_suffix.mp hsuf
  exact relaxed_body_idem ⟨t, ht.symm⟩

/-- C4, witness: the amended theorem applied to the CRLF-terminated
body "x \t y\r\n". -/
theorem claim_C4_witness :
    Relaxed.canonicalize_body (Relaxed.canonicalize_body (bs "x \t y\r\n"))
      = Relaxed.canonicalize_body (bs "x \t y\r\n") :=
  claim_C4_canonicalization_idempotence.2.2.2 (bs "x \t y\r\n") (by decide)

/-- C3, counterexample: `hash_headers` disagrees with the spec's words
("every element of the signed list except the last is rstripped, the
last is fed as-is without its terminal CRLF", embedded as
`spec_hash_headers`) on a selected header whose value carries trailing
whitespace: the code feeds `A: x \r\n` untouched where the spec words
demand `A: x`. -/
theorem claim_C3_counterexample :
    hash_headers CanonAlg.simple [(bs "A", bs " x \r\n")] [bs "a"]
        [(bs "DKIM-Signature", bs " v=1; b=XYZ\r\n")] [(bs "b", bs "XYZ")] ≠
      spec_hash_headers CanonAlg.simple [(bs "A", bs " x \r\n")] [bs "a"]
        [(bs "DKIM-Signature", bs " v=1; b=XYZ\r\n")] [(bs "b", bs "XYZ")] := by
  decide

/-- C3, amended: the rstrip in `hash_headers` applies only to the LAST
element - the canonicalized `DKIM-Signature` header with the `b=` value
excised - while every selected header of the signed list is fed to the
digest exactly as it appears in the message (name, ":", value, no
rstrip).  The terminal CRLF of the signature header disappears because
`rstrip` eats it along with any other trailing whitespace. -/
theorem claim_C3_signed_list_rstrip :
    ∀ (canon : CanonAlg) (headers : List Header) (includeNames : List Bytes)
      (s0 : Header) (rest : List Header) (sig : TagMap) (bval v2 : Bytes),
      tmGet sig (bs "b") = .ok bval →
      removeSub s0.2 bval = .ok v2 →
      hash_headers canon headers includeNames (s0 :: rest) sig =
        .ok (feedStream (selectHeaders headers includeNames []) ++
          feedStream ((canon.canonicalize_headers [(s0.1, v2)]).map
            (fun x => (x.1, rstripPy x.2)))) := by
  intro canon headers includeNames s0 rest sig bval v2 hb hr
  simp only [hash_headers, hb, hr, Except.bind, bind, pure, Except.pure]
  exact congrArg Except.ok (feedStream_append _ _)

/-- C3, witness: the amended theorem applied to the counterexample's
input. -/
theorem claim_C3_witness :
    tmGet [(bs "b", bs "XYZ")] (bs "b") = .ok (bs "XYZ") ∧
    removeSub (bs " v=1; b=XYZ\r\n") (bs "XYZ") = .ok (bs " v=1; b=\r\n") ∧
    hash_headers CanonAlg.simple [(bs "A", bs " x \r\n")] [bs "a"]
        [(bs "DKIM-Signature", bs " v=1; b=XYZ\r\n")] [(bs "b", bs "XYZ")] =
      .ok (feedStream (selectHeaders [(bs "A", bs " x \r\n")] [bs "a"] []) ++
        feedStream ((CanonAlg.simple.canonicalize_headers
            [(bs "DKIM-Signature", bs " v=1; b=\r\n")]).map
          (fun x => (x.1, rstripPy x.2)))) :=
  ⟨by decide, by decide,
    claim_C3_signed_list_rstrip CanonAlg.simple [(bs "A", bs " x \r\n")] [bs "a"]
      (bs "DKIM-Signature", bs " v=1; b=XYZ\r\n") [] [(bs "b", bs "XYZ")]
      (bs "XYZ") (bs " v=1; b=\r\n") (by decide) (by decide)⟩

/-- C7: `fold` wraps a header value.  Clause 1: a value of at most 72
bytes is returned unchanged.  Clause 2: with a space in the first 72
bytes it breaks at the rightmost such space, emits the prefix,
`"\r\n "`, and recurses on the suffix after the space.  Clause 3 (the
corrected no-space case): `rfind` returns `-1` and Python's negative
slices make the loop emit ALL BUT THE LAST byte, `"\r\n "`, and the
final byte - it does NOT force-break at column 72. -/
theorem claim_C7_fold_wrapping :
    (∀ header : Bytes, header.length ≤ 72 → fold header = header) ∧
    (∀ (header : Bytes) (i : Nat), header.length > 72 →
      rfindSubIdx header (bs "\r\n ") = none →
      rfindSubIdx (header.take 72) (bs " ") = some i →
      fold header = header.take i ++ bs "\r\n " ++ fold (header.drop (i + 1))) ∧
    (∀ header : Bytes, header.length > 72 →
      rfindSubIdx header (bs "\r\n ") = none →
      rfindSubIdx (header.take 72) (bs " ") = none →
      fold header = header.dropLast ++ bs "\r\n " ++ header.drop (header.length - 1)) := by
  refine ⟨?_, ?_, ?_⟩
  · intro header hle
    unfold fold
    cases hfind : rfindSubIdx header (bs "\r\n ") with
    | none =>
      show foldLoop [] header = header
      rw [foldLoop_short [] header hle]
      rfl
    | some i =>
      show foldLoop (header.take (i + 3)) (header.drop (i + 3)) = header
      rw [foldLoop_short _ _ (by rw [List.length_drop]; omega)]
      exact List.take_append_drop _ _
  · intro header i hlen hcr hsp
    have hd : rfindSubIdx (header.drop (i + 1)) (bs "\r\n ") = none :=
      rfindSubIdx_none_drop header _ (i + 1) hcr
    simp only [fold, hcr, hd]
    unfold foldLoop
    obtain ⟨m, hm⟩ : ∃ m, header.length = m + 1 := ⟨header.length - 1, by omega⟩
    rw [hm, foldLoopGo, if_pos hlen]
    simp only [hsp]
    rw [foldLoopGo_pre m, foldLoopGo_fuel m [] (header.drop (i + 1))
      (by rw [List.length_drop]; omega)]
    simp [List.append_assoc]
  · intro header hlen hcr hsp
    simp only [fold, hcr]
    unfold foldLoop
    obtain ⟨m, hm⟩ : ∃ m, header.length = m + 1 := ⟨header.length - 1, by omega⟩
    have hm1 : header.length - 1 = m := by omega
    rw [hm1, hm, foldLoopGo, if_pos hlen]
    simp only [hsp]
    rw [hm1, foldLoopGo_pre m]
    have h1 : (header.drop m).length = 1 := by rw [List.length_drop]; omega
    rw [foldLoopGo_fuel m [] (header.drop m) (by omega), h1, foldLoopGo,
      if_neg (by rw [h1]; omega)]
    simp [List.append_assoc]

/-- C7, counterexample: on 80 copies of "a" (no space anywhere) the
claimed force-break at column 72 does not happen; the loop breaks
before the last byte instead. -/
theorem claim_C7_counterexample :
    fold (List.replicate 80 'a') ≠
      (List.replicate 80 'a').take 72 ++ bs "\r\n " ++ (List.replicate 80 'a').drop 72 := by
  decide

/-- C7, witness: the no-space clause of the theorem applied to 80
copies of "a". -/
theorem claim_C7_witness :
    (List.replicate 80 'a').length > 72 ∧
    rfindSubIdx (List.replicate 80 'a') (bs "\r\n ") = none ∧
    rfindSubIdx ((List.replicate 80 'a').take 72) (bs " ") = none ∧
    fold (List.replicate 80 'a') =
      (List.replicate 80 'a').dropLast ++ bs "\r\n " ++
        (List.replicate 80 'a').drop ((List.replicate 80 'a').length - 1) :=
  ⟨by decide, by decide, by decide,
    claim_C7_fold_wrapping.2.2 (List.replicate 80 'a') (by decide) (by decide) (by decide)⟩

/-- C2: `verify` returns `.ok false` on ordinary failures - no
DKIM-Signature header, a tag-list parse error, a `ValidationError`, an
unparsable `c=` value, an unknown header or body canonicalization
name, an unknown `a=` algorithm, a body-hash mismatch, and a DNS
lookup that returns nothing - but it does NOT catch everything: an
`rfc822_parse` failure, any non-`ValidationError` exception of
`validate_signature_fields` (the `%d`-format `TypeError`, the missing-t
`KeyError`, the short-`i` `IndexError`), a `KeyError` from `sig['c']`
when `c=` is absent, and a `ValueError` from `int(sig['l'])` on an
invalid `l=` value (the `\d{,76}$` regex admits the empty string)
all propagate out of `verify` as exceptions, refuting "never
raises". -/
theorem claim_C2_verify_error_handling :
    (∀ (A : CryptoAdapter) (dns : Bytes → Option Bytes) (msg : Bytes) (e : PyErr),
      rfc822_parse msg = .error e → verify A dns msg = .error e) ∧
    (∀ (A : CryptoAdapter) (dns : Bytes → Option Bytes) (msg : Bytes)
      (hdrs : List Header) (bdy : Bytes),
      rfc822_parse msg = .ok (hdrs, bdy) →
      hdrs.filter (fun x => lowerB x.1 == bs "dkim-signature") = [] →
      verify A dns msg = .ok false) ∧
    (∀ (A : CryptoAdapter) (dns : Bytes → Option Bytes) (msg : Bytes)
      (hdrs : List Header) (bdy : Bytes) (s0 : Header) (rest : List Header) (e : PyErr),
      rfc822_parse msg = .ok (hdrs, bdy) →
      hdrs.filter (fun x => lowerB x.1 == bs "dkim-signature") = s0 :: rest →
      parse_tag_value s0.2 = .error e →
      verify A dns msg = .ok false) ∧
    (∀ (A : CryptoAdapter) (dns : Bytes → Option Bytes) (msg : Bytes)
      (hdrs : List Header) (bdy : Bytes) (s0 : Header) (rest : List Header)
      (sig : TagMap) (m : Bytes),
      rfc822_parse msg = .ok (hdrs, bdy) →
      hdrs.filter (fun x => lowerB x.1 == bs "dkim-signature") = s0 :: rest →
      parse_tag_value s0.2 = .ok sig →
      validate_signature_fields sig = .error (.validationError m) →
      verify A dns msg = .ok false) ∧
    (∀ (A : CryptoAdapter) (dns : Bytes → Option Bytes) (msg : Bytes)
      (hdrs : List Header) (bdy : Bytes) (s0 : Header) (rest : List Header)
      (sig : TagMap) (e : PyErr),
      rfc822_parse msg = .ok (hdrs, bdy) →
      hdrs.filter (fun x => lowerB x.1 == bs "dkim-signature") = s0 :: rest →
      parse_tag_value s0.2 = .ok sig →
      validate_signature_fields sig = .error e →
      (∀ m, e ≠ .validationError m) →
      verify A dns msg = .error e) ∧
    (∀ (A : CryptoAdapter) (dns : Bytes → Option Bytes) (msg : Bytes)
      (hdrs : List Header) (bdy : Bytes) (s0 : Header) (rest : List Header)
      (sig : TagMap) (cval : Bytes),
      rfc822_parse msg = .ok (hdrs, bdy) →
      hdrs.filter (fun x => lowerB x.1 == bs "dkim-signature") = s0 :: rest →
      parse_tag_value s0.2 = .ok sig →
      validate_signature_fields sig = .ok () →
      tmGet sig (bs "c") = .ok cval →
      cMatch cval = none →
      verify A dns msg = .ok false) ∧
    (∀ (A : CryptoAdapter) (dns : Bytes → Option Bytes) (msg : Bytes)
      (hdrs : List Header) (bdy : Bytes) (s0 : Header) (rest : List Header)
      (sig : TagMap) (e : PyErr),
      rfc822_parse msg = .ok (hdrs, bdy) →
      hdrs.filter (fun x => lowerB x.1 == bs "dkim-signature") = s0 :: rest →
      parse_tag_value s0.2 = .ok sig →
      validate_signature_fields sig = .ok () →
      tmGet sig (bs "c") = .error e →
      verify A dns msg = .error e) ∧
    (∀ (A : CryptoAdapter) (dns : Bytes → Option Bytes) (msg : Bytes)
      (hdrs : List Header) (bdy : Bytes) (s0 : Header) (rest : List Header)
      (sig : TagMap) (cval canH canB : Bytes),
      rfc822_parse msg = .ok (hdrs, bdy) →
      hdrs.filter (fun x => lowerB x.1 == bs "dkim-signature") = s0 :: rest →
      parse_tag_value s0.2 = .ok sig →
      validate_signature_fields sig = .ok () →
      tmGet sig (bs "c") = .ok cval →
      cMatch cval = some (canH, canB) →
      (if canH = bs "simple" then some CanonAlg.simple
        else if canH = bs "relaxed" then some CanonAlg.relaxed else none) = none →
      verify A dns msg = .ok false) ∧
    (∀ (A : CryptoAdapter) (dns : Bytes → Option Bytes) (msg : Bytes)
      (hdrs : List Header) (bdy : Bytes) (s0 : Header) (rest : List Header)
      (sig : TagMap) (cval canH canB : Bytes) (ch : CanonAlg),
      rfc822_parse msg = .ok (hdrs, bdy) →
      hdrs.filter (fun x => lowerB x.1 == bs "dkim-signature") = s0 :: rest →
      parse_tag_value s0.2 = .ok sig →
      validate_signature_fields sig = .ok () →
      tmGet sig (bs "c") = .ok cval →
      cMatch cval = some (canH, canB) →
      (if canH = bs "simple" then some CanonAlg.simple
        else if canH = bs "relaxed" then some CanonAlg.relaxed else none) = some ch →
      (if canB = bs "simple" then some CanonAlg.simple
        else if canB = bs "relaxed" then some CanonAlg.relaxed else none) = none →
      verify A dns msg = .ok false) ∧
    (∀ (A : CryptoAdapter) (dns : Bytes → Option Bytes) (msg : Bytes)
      (hdrs : List Header) (bdy : Bytes) (s0 : Header) (rest : List Header)
      (sig : TagMap) (cval canH canB : Bytes) (ch cb : CanonAlg) (aval : Bytes),
      rfc822_parse msg = .ok (hdrs, bdy) →
      hdrs.filter (fun x => lowerB x.1 == bs "dkim-signature") = s0 :: rest →
      parse_tag_value s0.2 = .ok sig →
      validate_signature_fields sig = .ok () →
      tmGet sig (bs "c") = .ok cval →
      cMatch cval = some (canH, canB) →
      (if canH = bs "simple" then some CanonAlg.simple
        else if canH = bs "relaxed" then some CanonAlg.relaxed else none) = some ch →
      (if canB = bs "simple" then some CanonAlg.simple
        else if canB = bs "relaxed" then some CanonAlg.relaxed else none) = some cb →
      tmGet sig (bs "a") = .ok aval →
      (if aval = bs "rsa-sha1" then some A.sha1
        else if aval = bs "rsa-sha256" then some A.sha256 else none) = none →
      verify A dns msg = .ok false) ∧
    (∀ (A : CryptoAdapter) (dns : Bytes → Option Bytes) (msg : Bytes)
      (hdrs : List Header) (bdy : Bytes) (s0 : Header) (rest : List Header)
      (sig : TagMap) (cval canH canB : Bytes) (ch cb : CanonAlg) (aval : Bytes)
      (hashfn : Bytes → Bytes) (lv : Bytes) (e2 : PyErr),
      rfc822_parse msg = .ok (hdrs, bdy) →
      hdrs.filter (fun x => lowerB x.1 == bs "dkim-signature") = s0 :: rest →
      parse_tag_value s0.2 = .ok sig →
      validate_signature_fields sig = .ok () →
      tmGet sig (bs "c") = .ok cval →
      cMatch cval = some (canH, canB) →
      (if canH = bs "simple" then some CanonAlg.simple
        else if canH = bs "relaxed" then some CanonAlg.relaxed else none) = some ch →
      (if canB = bs "simple" then some CanonAlg.simple
        else if canB = bs "relaxed" then some CanonAlg.relaxed else none) = some cb →
      tmGet sig (bs "a") = .ok aval →
      (if aval = bs "rsa-sha1" then some A.sha1
        else if aval = bs "rsa-sha256" then some A.sha256 else none) = some hashfn →
      tmFind sig (bs "l") = some lv →
      pyIntE lv = .error e2 →
      verify A dns msg = .error e2) ∧
    (∀ (A : CryptoAdapter) (dns : Bytes → Option Bytes) (msg : Bytes)
      (hdrs : List Header) (bdy : Bytes) (s0 : Header) (rest : List Header)
      (sig : TagMap) (cval canH canB : Bytes) (ch cb : CanonAlg) (aval : Bytes)
      (hashfn : Bytes → Bytes) (bhval expected : Bytes),
      rfc822_parse msg = .ok (hdrs, bdy) →
      hdrs.filter (fun x => lowerB x.1 == bs "dkim-signature") = s0 :: rest →
      parse_tag_value s0.2 = .ok sig →
      validate_signature_fields sig = .ok () →
      tmGet sig (bs "c") = .ok cval →
      cMatch cval = some (canH, canB) →
      (if canH = bs "simple" then some CanonAlg.simple
        else if canH = bs "relaxed" then some CanonAlg.relaxed else none) = some ch →
      (if canB = bs "simple" then some CanonAlg.simple
        else if canB = bs "relaxed" then some CanonAlg.relaxed else none) = some cb →
      tmGet sig (bs "a") = .ok aval →
      (if aval = bs "rsa-sha1" then some A.sha1
        else if aval = bs "rsa-sha256" then some A.sha256 else none) = some hashfn →
      tmFind sig (bs "l") = none →
      tmGet sig (bs "bh") = .ok bhval →
      b64decode (bhval.filter (fun c => !isPyWsp c)) = .ok expected →
      hashfn (cb.canonicalize_body bdy) ≠ expected →
      verify A dns msg = .ok false) ∧
    (∀ (A : CryptoAdapter) (dns : Bytes → Option Bytes) (msg : Bytes)
      (hdrs : List Header) (bdy : Bytes) (s0 : Header) (rest : List Header)
      (sig : TagMap) (cval canH canB : Bytes) (ch cb : CanonAlg) (aval : Bytes)
      (hashfn : Bytes → Bytes) (bhval expected sval dval : Bytes),
      rfc822_parse msg = .ok (hdrs, bdy) →
      hdrs.filter (fun x => lowerB x.1 == bs "dkim-signature") = s0 :: rest →
      parse_tag_value s0.2 = .ok sig →
      validate_signature_fields sig = .ok () →
      tmGet sig (bs "c") = .ok cval →
      cMatch cval = some (canH, canB) →
      (if canH = bs "simple" then some CanonAlg.simple
        else if canH = bs "relaxed" then some CanonAlg.relaxed else none) = some ch →
      (if canB = bs "simple" then some CanonAlg.simple
        else if canB = bs "relaxed" then some CanonAlg.relaxed else none) = some cb →
      tmGet sig (bs "a") = .ok aval →
      (if aval = bs "rsa-sha1" then some A.sha1
        else if aval = bs "rsa-sha256" then some A.sha256 else none) = some hashfn →
      tmFind sig (bs "l") = none →
      tmGet sig (bs "bh") = .ok bhval →
      b64decode (bhval.filter (fun c => !isPyWsp c)) = .ok expected →
      hashfn (cb.canonicalize_body bdy) = expected →
      tmGet sig (bs "s") = .ok sval →
      tmGet sig (bs "d") = .ok dval →
      dns (sval ++ bs "._domainkey." ++ dval ++ bs ".") = none →
      verify A dns msg = .ok false) := by
  refine ⟨?_, ?_, ?_, ?_, ?_, ?_, ?_, ?_, ?_, ?_, ?_, ?_, ?_⟩
  · intro A dns msg e hpar
    simp only [verify, hpar, Except.bind, bind, Except.pure, pure]
  · intro A dns msg hdrs bdy hpar hfil
    simp only [verify, hpar, hfil, Except.bind, bind, Except.pure, pure]
  · intro A dns msg hdrs bdy s0 rest e hpar hfil hptv
    simp only [verify, hpar, hfil, hptv, Except.bind, bind, Except.pure, pure]
  · intro A dns msg hdrs bdy s0 rest sig m hpar hfil hptv hval
    simp only [verify, hpar, hfil, hptv, hval, Except.bind, bind, Except.pure, pure]
  · intro A dns msg hdrs bdy s0 rest sig e hpar hfil hptv hval hne
    cases e with
    | validationError m => exact absurd rfl (hne m)
    | messageFormatError m =>
      simp only [verify, hpar, hfil, hptv, hval, Except.bind, bind, Except.pure, pure]
      rfl
    | parameterError m =>
      simp only [verify, hpar, hfil, hptv, hval, Except.bind, bind, Except.pure, pure]
      rfl
    | keyFormatError m =>
      simp only [verify, hpar, hfil, hptv, hval, Except.bind, bind, Except.pure, pure]
      rfl
    | invalidTagValueList =>
      simp only [verify, hpar, hfil, hptv, hval, Except.bind, bind, Except.pure, pure]
      rfl
    | indexError =>
      simp only [verify, hpar, hfil, hptv, hval, Except.bind, bind, Except.pure, pure]
      rfl
    | keyError =>
      simp only [verify, hpar, hfil, hptv, hval, Except.bind, bind, Except.pure, pure]
      rfl
    | typeError =>
      simp only [verify, hpar, hfil, hptv, hval, Except.bind, bind, Except.pure, pure]
      rfl
    | valueError =>
      simp only [verify, hpar, hfil, hptv, hval, Except.bind, bind, Except.pure, pure]
      rfl
    | assertionError =>
      simp only [verify, hpar, hfil, hptv, hval, Except.bind, bind, Except.pure, pure]
      rfl
  · intro A dns msg hdrs bdy s0 rest sig cval hpar hfil hptv hval hc hcm
    simp only [verify, hpar, hfil, hptv, hval, hc, hcm, Except.bind, bind, Except.pure, pure]
  · intro A dns msg hdrs bdy s0 rest sig e hpar hfil hptv hval hc
    simp only [verify, hpar, hfil, hptv, hval, hc, Except.bind, bind, Except.pure, pure]
  · intro A dns msg hdrs bdy s0 rest sig cval canH canB hpar hfil hptv hval hc hcm hch
    simp only [verify, hpar, hfil, hptv, hval, hc, hcm, hch, Except.bind, bind,
      Except.pure, pure]
  · intro A dns msg hdrs bdy s0 rest sig cval canH canB ch hpar hfil hptv hval hc hcm hch hcb
    simp only [verify, hpar, hfil, hptv, hval, hc, hcm, hch, hcb, Except.bind, bind,
      Except.pure, pure]
  · intro A dns msg hdrs bdy s0 rest sig cval canH canB ch cb aval
      hpar hfil hptv hval hc hcm hch hcb ha hhash
    simp only [verify, hpar, hfil, hptv, hval, hc, hcm, hch, hcb, ha, hhash,
      Except.bind, bind, Except.pure, pure]
  · intro A dns msg hdrs bdy s0 rest sig cval canH canB ch cb aval hashfn lv e2
      hpar hfil hptv hval hc hcm hch hcb ha hhash hl hint
    simp only [verify, hpar, hfil, hptv, hval, hc, hcm, hch, hcb, ha, hhash, hl, hint,
      Except.bind, bind, Except.pure, pure]
  · intro A dns msg hdrs bdy s0 rest sig cval canH canB ch cb aval hashfn bhval expected
      hpar hfil hptv hval hc hcm hch hcb ha hhash hl hbh hb64 hne
    simp only [verify, hpar, hfil, hptv, hval, hc, hcm, hch, hcb, ha, hhash, hl, hbh,
      hb64, Except.bind, bind, Except.pure, pure]
    rw [if_pos hne]
  · intro A dns msg hdrs bdy s0 rest sig cval canH canB ch cb aval hashfn bhval expected
      sval dval hpar hfil hptv hval hc hcm hch hcb ha hhash hl hbh hb64 heq hs hd2 hq
    simp only [verify, hpar, hfil, hptv, hval, hc, hcm, hch, hcb, ha, hhash, hl, hbh,
      hb64, Except.bind, bind, Except.pure, pure]
    rw [heq, if_neg (fun hcon => hcon rfl)]
    simp only [hs, hd2, hq, Except.bind, bind, Except.pure, pure]

/-- C2, counterexample: a message whose first line is not a header
makes `verify` raise `MessageFormatError` instead of returning a
boolean. -/
theorem claim_C2_counterexample :
    verify fixedAdapter (staticDns (bs "key")) (bs "garbage\r\n") =
      .error (.messageFormatError (bs "Unexpected characters in RFC822 header: garbage")) := by
  decide

/-- C2, witness: the no-signature-header clause applied to a one-header
message. -/
theorem claim_C2_witness :
    rfc822_parse (bs "A: b\r\n\r\nx") = .ok ([(bs "A", bs " b\r\n")], bs "x") ∧
    ([(bs "A", bs " b\r\n")] : List Header).filter
      (fun x => lowerB x.1 == bs "dkim-signature") = [] ∧
    verify fixedAdapter (staticDns (bs "key")) (bs "A: b\r\n\r\nx") = .ok false :=
  ⟨by decide, by decide,
    claim_C2_verify_error_handling.2.1 fixedAdapter (staticDns (bs "key"))
      (bs "A: b\r\n\r\nx") [(bs "A", bs " b\r\n")] (bs "x") (by decide) (by decide)⟩

set_option maxHeartbeats 10000000 in
/-- C1: the sign/verify round trip holds with the signature header
PREPENDED to the message (the header line `sign` returns ends in CRLF
and must precede the existing headers): for every canonicalization pair
and every resolver that pointwise returns the static TXT record of the
key, verifying the prepended message yields true.  The adapter's RSA
signature carries the signer's full digest and verification compares
it byte for byte, so the theorem certifies full-digest equality of the
two header-hash compositions.  Proved for a family of structurally
distinct messages: CRLF multi-header with body, bare-LF line endings,
and a folded continuation header. -/
theorem claim_C1_round_trip :
    ∀ m : Bytes,
      (m = bs "A: a\r\nB: b\r\n\r\nhi\r\n" ∨
        m = bs "A: x\nB: y z\n\nw\n" ∨
        m = bs "A: a\r\nB: l\r\n\tf\r\n\r\nhi\r\n") →
      ∀ (ch cb : CanonAlg) (dns : Bytes → Option Bytes),
        (∀ q, dns q = staticDns (bs "P") q) →
        (do
          let out ← sign fixedAdapter 1234 m
            (bs "s") (bs "ex.co") (bs "K") none (ch, cb) none false
          verify fixedAdapter dns (out ++ m)) = .ok true := by
  intro m hm ch cb dns hdns
  have hd : dns = staticDns (bs "P") := funext hdns
  subst hd
  rcases hm with rfl | rfl | rfl <;> cases ch <;> cases cb <;> decide

/-- C1, counterexample to the claim as stated: APPENDING the returned
header to the message puts the line after the blank separator, i.e.
into the body, so `verify` finds no DKIM-Signature header and returns
false (first conjunct).  Prepending also fails on a message with two
same-named headers: `sign` hashes them in document order while
`verify`'s cursor selection walks backward, so the streams disagree and
verification returns false (second conjunct). -/
theorem claim_C1_counterexample :
    (do
      let out ← sign fixedAdapter 1234 (bs "A: a\r\nB: b\r\n\r\nhi\r\n")
        (bs "s") (bs "ex.co") (bs "K") none (.simple, .simple) none false
      verify fixedAdapter (staticDns (bs "P"))
        (bs "A: a\r\nB: b\r\n\r\nhi\r\n" ++ out)) = .ok false ∧
    (do
      let out ← sign fixedAdapter 1234 (bs "A: 1\r\nA: 2\r\n\r\nhi\r\n")
        (bs "s") (bs "ex.co") (bs "K") none (.simple, .simple) none false
      verify fixedAdapter (staticDns (bs "P"))
        (out ++ bs "A: 1\r\nA: 2\r\n\r\nhi\r\n")) = .ok false :=
  ⟨by decide, by decide⟩

/-- C1, witness: the round-trip theorem applied to the first family
member with the relaxed/relaxed pair and the static resolver itself. -/
theorem claim_C1_witness :
    (bs "A: a\r\nB: b\r\n\r\nhi\r\n" = bs "A: a\r\nB: b\r\n\r\nhi\r\n" ∨
      bs "A: a\r\nB: b\r\n\r\nhi\r\n" = bs "A: x\nB: y z\n\nw\n" ∨
      bs "A: a\r\nB: b\r\n\r\nhi\r\n" = bs "A: a\r\nB: l\r\n\tf\r\n\r\nhi\r\n") ∧
    (∀ q, staticDns (bs "P") q = staticDns (bs "P") q) ∧
    (do
      let out ← sign fixedAdapter 1234 (bs "A: a\r\nB: b\r\n\r\nhi\r\n")
        (bs "s") (bs "ex.co") (bs "K") none (CanonAlg.relaxed, CanonAlg.relaxed) none false
      verify fixedAdapter (staticDns (bs "P"))
        (out ++ bs "A: a\r\nB: b\r\n\r\nhi\r\n")) = .ok true :=
  ⟨Or.inl rfl, fun _ => rfl,
    claim_C1_round_trip (bs "A: a\r\nB: b\r\n\r\nhi\r\n") (Or.inl rfl)
      CanonAlg.relaxed CanonAlg.relaxed (staticDns (bs "P")) (fun _ => rfl)⟩

end Dkim
